import Mathlib

/-!
# Shallow embedding of the LSM-tree storage engine

This file embeds the core of the `lsm-tree-storage` JavaScript repository in
Lean 4 and proves/refutes the frozen claims about it.

Modelling conventions, used throughout:

* A JavaScript string is modelled as the list of bytes of its UTF-8 encoding
  (`Str := List Nat`).  JS string comparison (`<`, `>`, `===`) is modelled by
  lexicographic comparison / equality of the byte lists, which agrees with the
  JS code-unit order on strings of basic-plane characters (all strings the
  engine's own code and tests use).
* Node `Buffer`s and files are `List Nat` byte lists.  Little-endian integer
  reads/writes mirror `readUInt16LE`/`writeUInt32LE` etc.
* The bloom filter's `Uint8Array` of bits is modelled as a single `Nat`
  bitmask: bit `i` of the `Nat` corresponds to bit `i & 7` of byte `i >>> 3`
  in the source, which is exactly the bit the source addresses for position
  `i`.
* The FNV-style hash is modelled with exact 32-bit modular arithmetic.  (The
  JS source computes `(hash * 16777619) >>> 0` with float64 multiplication,
  which can round for large intermediates; none of the claims proved here
  depend on the exact hash values, only on the hash being a deterministic
  function of key and seed with result `< size`.)
* `while (pos < end)` parsing loops are modelled with an explicit fuel
  argument (the loops advance `pos` by at least 6 bytes per iteration, so a
  fuel of `end` always suffices); the wrappers instantiate the fuel with the
  buffer length.
* `Date.now()` is modelled by a strictly increasing clock threaded through
  the engine state (one admissible real-time behaviour; the spec itself notes
  that equal-millisecond timestamps would collide on file names).
* Throwing operations (`SSTableReader.open` on bad magic) return `Option`.
-/

set_option maxRecDepth 16384
set_option exponentiation.threshold 4096

/-- A JS string, as its UTF-8 byte sequence. -/
abbrev Str := List Nat

/-- Bytes of an ASCII Lean string literal (used for concrete keys/values). -/
def strBytes (s : String) : Str := s.data.map Char.toNat

/-- JS `a < b` on strings: lexicographic comparison of the byte lists. -/
def strLt : Str → Str → Bool
  | [], [] => false
  | [], _ :: _ => true
  | _ :: _, [] => false
  | a :: as, b :: bs => if a < b then true else if b < a then false else strLt as bs

/-! Configuration constants, from `lsm.config.js`. -/

def MEMTABLE_SIZE_THRESHOLD : Nat := 64 * 1024
def BLOOM_FILTER_SIZE : Nat := 1024
def BLOOM_HASH_COUNT : Nat := 7
def MAX_LEVELS : Nat := 5
def SIZE_RATIO : Nat := 4
def SPARSE_INDEX_INTERVAL : Nat := 16
def TOMBSTONE : Str := strBytes "__TOMBSTONE__"
def SSTABLE_MAGIC : Nat := 0x4c534d54
def SSTABLE_VERSION : Nat := 1

/-! ## Little-endian integer encoding (Node `Buffer` reads/writes) -/

/-- `buf.writeUInt16LE n` (Node throws for `n ≥ 2^16`; theorems hypothesise the bound). -/
def u16le (n : Nat) : List Nat := [n % 256, n / 256 % 256]

/-- `buf.writeUInt32LE n`. -/
def u32le (n : Nat) : List Nat :=
  [n % 256, n / 256 % 256, n / 65536 % 256, n / 16777216 % 256]

/-- `buf.readUInt16LE pos`. -/
def readU16 (buf : List Nat) (pos : Nat) : Nat :=
  buf.getD pos 0 + 256 * buf.getD (pos + 1) 0

/-- `buf.readUInt32LE pos`. -/
def readU32 (buf : List Nat) (pos : Nat) : Nat :=
  buf.getD pos 0 + 256 * buf.getD (pos + 1) 0 + 65536 * buf.getD (pos + 2) 0 +
    16777216 * buf.getD (pos + 3) 0

/-- `buf.subarray s e` / `buf.toString('utf8', s, e)` as a byte slice. -/
def subarray (buf : List Nat) (s e : Nat) : List Nat := (buf.take e).drop s

/-! ## Bloom filter (`src/bloom-filter.js`) -/

/-- One FNV-1a step: `hash = ((hash ^ code) * 16777619) >>> 0`. -/
def fnvStep (h c : Nat) : Nat := ((h ^^^ c) * 16777619) % 2 ^ 32

/-- `BloomFilter._hash(key, seed)`: seeded FNV over the key, reduced mod `size`. -/
def jsHash (size : Nat) (key : Str) (seed : Nat) : Nat :=
  (key.foldl fnvStep ((2166136261 ^^^ seed) % 2 ^ 32)) % size

/-- The in-memory bloom filter.  `bits` is the `Uint8Array` as a bitmask:
bit `i` of the `Nat` is bit `i & 7` of byte `i >>> 3` of the source array. -/
structure BloomFilter where
  size : Nat
  hashCount : Nat
  bits : Nat
deriving Repr, DecidableEq

/-- `new BloomFilter(size, hashCount)`. -/
def bloomInit (size hashCount : Nat) : BloomFilter :=
  { size := size, hashCount := hashCount, bits := 0 }

/-- `bf.add(key)`: set the `hashCount` addressed bits. -/
def bloomAdd (bf : BloomFilter) (key : Str) : BloomFilter :=
  { bf with
    bits := (List.range bf.hashCount).foldl
      (fun b i => b ||| 2 ^ jsHash bf.size key i) bf.bits }

/-- `bf.mightContain(key)`: all addressed bits set. -/
def mightContain (bf : BloomFilter) (key : Str) : Bool :=
  (List.range bf.hashCount).all (fun i => bf.bits.testBit (jsHash bf.size key i))

/-- Number of bytes of the bit array: `Math.ceil(size / 8)`. -/
def bloomNumBytes (size : Nat) : Nat := (size + 7) / 8

/-- `bf.serialize()`: `size (u32 LE) | hashCount (u8) | bits`. -/
def bloomSerialize (bf : BloomFilter) : List Nat :=
  u32le bf.size ++ [bf.hashCount] ++
    (List.range (bloomNumBytes bf.size)).map (fun j => bf.bits / 2 ^ (8 * j) % 256)

/-- Reassemble a little-endian byte list into a `Nat`. -/
def bytesToNat : List Nat → Nat
  | [] => 0
  | b :: bs => b + 256 * bytesToNat bs

/-- `BloomFilter.deserialize(buf)`. -/
def bloomDeserialize (buf : List Nat) : BloomFilter :=
  { size := readU32 buf 0
    hashCount := buf.getD 4 0
    bits := bytesToNat ((buf.drop 5).take (bloomNumBytes (readU32 buf 0))) }

/-! ## SSTable (`src/sstable.js`) -/

/-- One key-value entry. -/
structure Entry where
  key : Str
  value : Str
deriving Repr, DecidableEq

/-- Byte length of one data-block record:
`keyLen(2B) | valLen(4B) | keyBytes | valueBytes`. -/
def recLen (e : Entry) : Nat := 6 + e.key.length + e.value.length

/-- The encoded record. -/
def encRecord (e : Entry) : List Nat :=
  u16le e.key.length ++ u32le e.value.length ++ e.key ++ e.value

/-- The writer's main loop over the entries: returns the data-block bytes and
the sparse index `(key, absolute byte offset)` collected for every
`SPARSE_INDEX_INTERVAL`-th entry.  `i` is the loop index, `off` the running
absolute offset of the next record. -/
def dataBlockAux : List Entry → Nat → Nat → List Nat × List (Str × Nat)
  | [], _, _ => ([], [])
  | e :: es, i, off =>
    let rest := dataBlockAux es (i + 1) (off + recLen e)
    (encRecord e ++ rest.1,
      (if i % SPARSE_INDEX_INTERVAL = 0 then [(e.key, off)] else []) ++ rest.2)

/-- The index block: `keyLen(2B) | offset(4B) | keyBytes` per sparse entry. -/
def indexBlock (sidx : List (Str × Nat)) : List Nat :=
  (sidx.map (fun p => u16le p.1.length ++ u32le p.2 ++ p.1)).flatten

/-- The bloom filter the writer builds (every key added, default parameters). -/
def writerBloom (entries : List Entry) : BloomFilter :=
  entries.foldl (fun b e => bloomAdd b e.key)
    (bloomInit BLOOM_FILTER_SIZE BLOOM_HASH_COUNT)

/-- `SSTableWriter.write(entries)`: the produced file as a byte list.
Header `magic(4) | version(1) | count(4)`, then data block, index block,
serialized bloom filter and the 16-byte footer. -/
def sstWrite (entries : List Entry) : List Nat :=
  let header := u32le SSTABLE_MAGIC ++ [SSTABLE_VERSION] ++ u32le entries.length
  let db := dataBlockAux entries 0 9
  let indexOffset := 9 + db.1.length
  let ib := indexBlock db.2
  let bloomOffset := indexOffset + ib.length
  let bb := bloomSerialize (writerBloom entries)
  let footer := u32le 9 ++ u32le indexOffset ++ u32le bloomOffset ++ u32le SSTABLE_MAGIC
  header ++ db.1 ++ ib ++ bb ++ footer

/-- Parsed reader state (`SSTableReader` fields after `open`). -/
structure SSTableReader where
  buf : List Nat
  dataOffset : Nat
  indexOffset : Nat
  bloomOffset : Nat
  entryCount : Nat
  bloom : BloomFilter
  sparseIndex : List (Str × Nat)
deriving Repr, DecidableEq

/-- `_parseIndex`'s `while (pos < end)` loop, with explicit fuel (the loop
advances `pos` by at least 6 per iteration, so fuel `end_` suffices). -/
def parseIndexAux (buf : List Nat) : Nat → Nat → Nat → List (Str × Nat)
  | 0, _, _ => []
  | fuel + 1, pos, end_ =>
    if pos < end_ then
      let keyLen := readU16 buf pos
      let off := readU32 buf (pos + 2)
      (subarray buf (pos + 6) (pos + 6 + keyLen), off) ::
        parseIndexAux buf fuel (pos + 6 + keyLen) end_
    else []

/-- `SSTableReader.open(file)`: parse footer (+ header magic), bloom block and
sparse index; `none` models the `CorruptSSTable` throw on bad magic. -/
def sstOpen (buf : List Nat) : Option SSTableReader :=
  let footerStart := buf.length - 16
  let dataOffset := readU32 buf footerStart
  let indexOffset := readU32 buf (footerStart + 4)
  let bloomOffset := readU32 buf (footerStart + 8)
  if readU32 buf (footerStart + 12) ≠ SSTABLE_MAGIC then none
  else if readU32 buf 0 ≠ SSTABLE_MAGIC then none
  else some
    { buf := buf
      dataOffset := dataOffset
      indexOffset := indexOffset
      bloomOffset := bloomOffset
      entryCount := readU32 buf 5
      bloom := bloomDeserialize (subarray buf bloomOffset (buf.length - 16))
      sparseIndex := parseIndexAux buf bloomOffset indexOffset bloomOffset }

/-- The sparse-index walk of `SSTableReader.get`: starting from
`scanStart = dataOffset`, every index entry with key `≤ key` moves `scanStart`
to its offset; the first entry with key `> key` fixes `scanEnd` and breaks. -/
def findWindowAux (key : Str) : List (Str × Nat) → Nat → Nat → Nat × Nat
  | [], scanStart, scanEnd => (scanStart, scanEnd)
  | (k, off) :: rest, scanStart, scanEnd =>
    if strLt key k then (scanStart, off)
    else findWindowAux key rest off scanEnd

/-- The record scan of `SSTableReader.get` over `[pos, scanEnd)`, fueled. -/
def scanRecords (buf : List Nat) (key : Str) : Nat → Nat → Nat → Option Str
  | 0, _, _ => none
  | fuel + 1, pos, scanEnd =>
    if pos < scanEnd then
      let keyLen := readU16 buf pos
      let valLen := readU32 buf (pos + 2)
      let k := subarray buf (pos + 6) (pos + 6 + keyLen)
      if k = key then some (subarray buf (pos + 6 + keyLen) (pos + 6 + keyLen + valLen))
      else if strLt key k then none
      else scanRecords buf key fuel (pos + 6 + keyLen + valLen) scanEnd
    else none

/-- `SSTableReader.get(key)`. -/
def sstGet (r : SSTableReader) (key : Str) : Option Str :=
  if !mightContain r.bloom key then none
  else
    let w := findWindowAux key r.sparseIndex r.dataOffset r.indexOffset
    scanRecords r.buf key w.2 w.1 w.2

/-- `SSTableReader.entries()`'s scan loop, fueled. -/
def sstEntriesAux (buf : List Nat) : Nat → Nat → Nat → List Entry
  | 0, _, _ => []
  | fuel + 1, pos, end_ =>
    if pos < end_ then
      let keyLen := readU16 buf pos
      let valLen := readU32 buf (pos + 2)
      { key := subarray buf (pos + 6) (pos + 6 + keyLen)
        value := subarray buf (pos + 6 + keyLen) (pos + 6 + keyLen + valLen) } ::
        sstEntriesAux buf fuel (pos + 6 + keyLen + valLen) end_
    else []

/-- `SSTableReader.entries()`. -/
def sstEntries (r : SSTableReader) : List Entry :=
  sstEntriesAux r.buf r.indexOffset r.dataOffset r.indexOffset

/-! ## MemTable (`src/memtable.js`)

The skip list's probabilistic forward-pointer levels only affect lookup cost;
its observable contents are the key-ordered bottom-level chain.  We embed that
chain directly: a list of entries in strictly ascending key order.  `put`,
`get` and `scan` mirror the source's traversal ("first node with key ≥
target"), and `count`/`byteSize` are updated exactly as the source does. -/

/-- Insert/update in the ordered chain.  Returns the new chain and, when the
key already existed, its previous value (the source's update branch). -/
def slPut (key value : Str) : List Entry → List Entry × Option Str
  | [] => ([{ key := key, value := value }], none)
  | e :: es =>
    if strLt e.key key then
      let r := slPut key value es
      (e :: r.1, r.2)
    else if e.key = key then ({ key := key, value := value } :: es, some e.value)
    else ({ key := key, value := value } :: e :: es, none)

/-- Find the first node with key ≥ target; return its value on exact match. -/
def slGet (key : Str) : List Entry → Option Str
  | [] => none
  | e :: es =>
    if strLt e.key key then slGet key es
    else if e.key = key then some e.value
    else none

structure MemTable where
  chain : List Entry
  count : Nat
  byteSize : Nat
deriving Repr, DecidableEq

def mtEmpty : MemTable := { chain := [], count := 0, byteSize := 0 }

/-- `memTable.put(key, value)`: on update, `byteSize` changes by the value
delta; on insert, `count` and `byteSize` grow. -/
def mtPut (m : MemTable) (key value : Str) : MemTable :=
  match slPut key value m.chain with
  | (l, some old) =>
    { chain := l, count := m.count, byteSize := m.byteSize - old.length + value.length }
  | (l, none) =>
    { chain := l, count := m.count + 1
      byteSize := m.byteSize + key.length + value.length }

def mtGet (m : MemTable) (key : Str) : Option Str := slGet key m.chain

/-- `memTable.delete(key)` = `put(key, TOMBSTONE)`. -/
def mtDelete (m : MemTable) (key : Str) : MemTable := mtPut m key TOMBSTONE

/-! ## WAL (`src/wal.js`) -/

/-- ASCII decimal digits of a natural number (the `Date.now()` timestamp as
text). -/
def digitsAux : Nat → Nat → List Nat
  | 0, _ => []
  | fuel + 1, n => if n < 10 then [48 + n] else digitsAux fuel (n / 10) ++ [48 + n % 10]

def decimalBytes (n : Nat) : List Nat := digitsAux (n + 1) n

def PIPE : Nat := 124
def NL : Nat := 10

def PUTB : Str := strBytes "PUT"
def DELETEB : Str := strBytes "DELETE"

/-- `wal.append(op, key, value)`: append `ts|op|key|value\n` to the file. -/
def walAppend (wal : List Nat) (ts : Nat) (op key value : Str) : List Nat :=
  wal ++ decimalBytes ts ++ [PIPE] ++ op ++ [PIPE] ++ key ++ [PIPE] ++ value ++ [NL]

/-- The ASCII whitespace bytes removed by `String.prototype.trim` (JS also
trims non-ASCII Unicode spaces; those are multi-byte in this byte-level model
and out of scope). -/
def isWsp (b : Nat) : Bool := b = 9 || b = 10 || b = 11 || b = 12 || b = 13 || b = 32

/-- `content.trim()`. -/
def trimBytes (l : List Nat) : List Nat :=
  ((l.dropWhile isWsp).reverse.dropWhile isWsp).reverse

/-- Split at the first occurrence of a byte (JS `indexOf` + `substring`);
`none` when the byte does not occur. -/
def splitFirst (c : Nat) : List Nat → Option (List Nat × List Nat)
  | [] => none
  | b :: bs =>
    if b = c then some ([], bs)
    else (splitFirst c bs).map (fun p => (b :: p.1, p.2))

/-- `content.split('\n')` (keeps empty segments, like JS). -/
def splitOnByte (c : Nat) : List Nat → List (List Nat)
  | [] => [[]]
  | b :: bs =>
    match splitOnByte c bs with
    | [] => [[]]
    | h :: t => if b = c then [] :: h :: t else (b :: h) :: t

/-- Parse one WAL line at the first three `|`: `ts|op|key|value`; the value
keeps any further `|` verbatim.  `none` models the "fewer than three pipes"
skip. -/
def parseWalLine (line : List Nat) : Option (Str × Str × Str) :=
  match splitFirst PIPE line with
  | none => none
  | some (_ts, r1) =>
    match splitFirst PIPE r1 with
    | none => none
    | some (op, r2) =>
      match splitFirst PIPE r2 with
      | none => none
      | some (key, value) => some (op, key, value)

/-- `wal.recover()`: trim, split on newlines, skip empty and malformed
lines. -/
def walRecover (wal : List Nat) : List (Str × Str × Str) :=
  let content := trimBytes wal
  if content.length = 0 then []
  else (splitOnByte NL content).filterMap
    (fun line => if line = [] then none else parseWalLine line)

/-! ## Compaction (`src/compaction.js`) -/

/-- One pass of the k-way merge's min-pick loop: find the smallest head key
among the iterators, with the value of the **first** (newest) iterator holding
it (the source only replaces the candidate on a strictly smaller key). -/
def mergeScan (its : List (List Entry)) : Option (Str × Str) :=
  its.foldl
    (fun acc it =>
      match it with
      | [] => acc
      | e :: _ =>
        match acc with
        | none => some (e.key, e.value)
        | some (mk, mv) => if strLt e.key mk then some (e.key, e.value) else some (mk, mv))
    none

/-- Advance every iterator whose head carries the emitted key. -/
def mergeAdvance (its : List (List Entry)) (mk : Str) : List (List Entry) :=
  its.map (fun it =>
    match it with
    | [] => []
    | e :: rest => if e.key = mk then rest else e :: rest)

/-- The merge loop, fueled: each emission consumes at least one pending entry,
so the total number of pending entries is sufficient fuel. -/
def kWayMergeAux : Nat → List (List Entry) → List Entry
  | 0, _ => []
  | fuel + 1, its =>
    match mergeScan its with
    | none => []
    | some (mk, mv) => { key := mk, value := mv } :: kWayMergeAux fuel (mergeAdvance its mk)

/-- `Compaction._kWayMerge(readers)` over the readers' entry lists. -/
def kWayMerge (its : List (List Entry)) : List Entry :=
  kWayMergeAux (its.map List.length).sum its

/-- A table handle `{ path, reader }`; the path is the `(level, timestamp)`
pair encoded in the file name `L<level>_<ts>.sst`. -/
structure TableHandle where
  path : Nat × Nat
  reader : SSTableReader
deriving Repr, DecidableEq

/-- An `.sst` file on disk. -/
structure SSTFile where
  level : Nat
  ts : Nat
  bytes : List Nat
deriving Repr, DecidableEq

abbrev Levels := List (List TableHandle)

/-- The `hasOlderLevels` scan: any level `M ∈ (lvl, MAX_LEVELS)` non-empty. -/
def hasOlderLevels (levels : Levels) (lvl : Nat) : Bool :=
  (List.range' (lvl + 1) (MAX_LEVELS - (lvl + 1))).any
    (fun m => !(levels.getD m []).isEmpty)

/-- The entry list compaction writes to the next level: the k-way merge of the
level's tables, with tombstones filtered out when no older level holds data. -/
def compactMerged (levels : Levels) (lvl : Nat) : List Entry :=
  let allEntries := kWayMerge ((levels.getD lvl []).map (fun t => sstEntries t.reader))
  if hasOlderLevels levels lvl then allEntries
  else allEntries.filter (fun e => e.value ≠ TOMBSTONE)

/-- State threaded through compaction: the levels map, the data directory's
files, and the clock (`Date.now()`). -/
structure CompState where
  levels : Levels
  files : List SSTFile
  clock : Nat
deriving Repr, DecidableEq

/-- The body of `Compaction.run`'s per-level loop.  `none` models a
`CorruptSSTable` throw from `SSTableReader.open` (never hit on files the
writer just produced). -/
def compactionStep (st : CompState) (lvl : Nat) : Option CompState :=
  let tables := st.levels.getD lvl []
  if tables.length < SIZE_RATIO then some st
  else
    let merged := compactMerged st.levels lvl
    let ts := st.clock
    let nextLvl := lvl + 1
    -- write the merged SSTable (if non-empty), then unlink the old files
    let files1 :=
      if merged.length > 0 then
        st.files ++ [{ level := nextLvl, ts := ts, bytes := sstWrite merged }]
      else st.files
    let files2 := files1.filter (fun f => (f.level, f.ts) ∉ tables.map TableHandle.path)
    let levels1 := st.levels.set lvl []
    if merged.length > 0 then
      match sstOpen (sstWrite merged) with
      | none => none
      | some reader =>
        let nextTables := levels1.getD nextLvl []
        -- the source *pushes* the new handle to the END of the next level
        some { levels := levels1.set nextLvl (nextTables ++ [{ path := (nextLvl, ts), reader := reader }])
               files := files2, clock := st.clock + 1 }
    else
      some { levels := levels1, files := files2, clock := st.clock + 1 }

/-- `Compaction.run(levels, dataDir)`: the loop over levels `0 ..
MAX_LEVELS - 2`. -/
def compactionRun (st : CompState) : Option CompState :=
  (List.range (MAX_LEVELS - 1)).foldl
    (fun acc lvl => acc.bind (fun s => compactionStep s lvl)) (some st)

/-! ## LSM orchestrator (`src/lsm-tree.js`) -/

/-- The engine's owned state: MemTable, WAL file contents, levels map, the
data directory's `.sst` files, and the clock. -/
structure Engine where
  memTable : MemTable
  wal : List Nat
  levels : Levels
  files : List SSTFile
  clock : Nat
deriving Repr, DecidableEq

/-- `flush()`: snapshot entries, write `L0_<ts>.sst`, unshift the new handle
onto level 0, clear MemTable and WAL, run compaction. -/
def engineFlush (s : Engine) : Option Engine :=
  let entries := s.memTable.chain
  if entries.length = 0 then some s
  else
    let ts := s.clock
    let bytes := sstWrite entries
    let files := s.files ++ [{ level := 0, ts := ts, bytes := bytes }]
    match sstOpen bytes with
    | none => none
    | some reader =>
      let l0 := s.levels.getD 0 []
      let levels := s.levels.set 0 ({ path := (0, ts), reader := reader } :: l0)
      match compactionRun { levels := levels, files := files, clock := s.clock + 1 } with
      | none => none
      | some st =>
        some { memTable := mtEmpty, wal := [], levels := st.levels
               files := st.files, clock := st.clock }

/-- `_maybeFlush()`. -/
def engineMaybeFlush (s : Engine) : Option Engine :=
  if s.memTable.byteSize ≥ MEMTABLE_SIZE_THRESHOLD then engineFlush s else some s

/-- `put(key, value)`: WAL append, MemTable put, maybe-flush. -/
def enginePut (s : Engine) (key value : Str) : Option Engine :=
  let s1 := { s with wal := walAppend s.wal s.clock PUTB key value
                     clock := s.clock + 1 }
  engineMaybeFlush { s1 with memTable := mtPut s1.memTable key value }

/-- `delete(key)`: WAL append of `DELETE|key|TOMBSTONE`, MemTable tombstone,
maybe-flush. -/
def engineDelete (s : Engine) (key : Str) : Option Engine :=
  let s1 := { s with wal := walAppend s.wal s.clock DELETEB key TOMBSTONE
                     clock := s.clock + 1 }
  engineMaybeFlush { s1 with memTable := mtDelete s1.memTable key }

/-- The per-level table scan of `get`: first reader hit is authoritative
(`some (some v)` = value, `some none` = tombstone hit, `none` = keep looking). -/
def tablesGet (key : Str) : List TableHandle → Option (Option Str)
  | [] => none
  | t :: rest =>
    match sstGet t.reader key with
    | some v => some (if v = TOMBSTONE then none else some v)
    | none => tablesGet key rest

/-- `get`'s level loop, levels in ascending order. -/
def levelsGet (key : Str) : Levels → Option Str
  | [] => none
  | tables :: rest =>
    match tablesGet key tables with
    | some r => r
    | none => levelsGet key rest

/-- `get(key)`: MemTable first (tombstone reads as absent), then the levels. -/
def engineGet (s : Engine) (key : Str) : Option Str :=
  match mtGet s.memTable key with
  | some v => if v = TOMBSTONE then none else some v
  | none => levelsGet key s.levels

/-! ### Startup (`_loadExistingSSTables` / `_recoverWAL`) -/

def emptyLevels : Levels := List.replicate MAX_LEVELS []

/-- Insertion step of the per-level `sort((a, b) => tsB - tsA)`: newest
(highest timestamp) first. -/
def insertTsDesc (t : TableHandle) : List TableHandle → List TableHandle
  | [] => [t]
  | u :: us => if u.path.2 < t.path.2 then t :: u :: us else u :: insertTsDesc t us

def sortTsDesc : List TableHandle → List TableHandle
  | [] => []
  | t :: ts => insertTsDesc t (sortTsDesc ts)

/-- `_loadExistingSSTables`: open each `.sst` file (skipping corrupt ones),
group by level, then sort each level newest-first by the timestamp parsed
from the file name.  (The source also pre-sorts the directory listing by file
name; with distinct timestamps — guaranteed here by the strictly increasing
clock — the final per-level order is fully determined by the timestamp sort,
so the pre-sort is immaterial.  A file with level ≥ MAX_LEVELS would be kept
in the source's map but is invisible to `get`, whose loop stops at
MAX_LEVELS; the engine never writes such files, and `List.set` drops them
here.) -/
def loadLevels (files : List SSTFile) : Levels :=
  (files.foldl
    (fun lv f =>
      match sstOpen f.bytes with
      | none => lv
      | some reader =>
        lv.set f.level
          ((lv.getD f.level []) ++ [{ path := (f.level, f.ts), reader := reader }]))
    emptyLevels).map sortTsDesc

/-- `_recoverWAL`: replay the parsed records into a fresh MemTable. -/
def recoverIntoMemTable (wal : List Nat) : MemTable :=
  (walRecover wal).foldl
    (fun m r =>
      if r.1 = PUTB then mtPut m r.2.1 r.2.2
      else if r.1 = DELETEB then mtDelete m r.2.1
      else m)
    mtEmpty

/-- `new LSMTree(dataDir)` over an existing data directory: load SSTables,
replay the WAL. -/
def loadEngine (files : List SSTFile) (wal : List Nat) (clock : Nat) : Engine :=
  { memTable := recoverIntoMemTable wal, wal := wal, levels := loadLevels files
    files := files, clock := clock }

/-- A fresh engine over an empty data directory. -/
def engineInit (clock : Nat) : Engine := loadEngine [] [] clock

/-- Public engine operations, for describing executions. -/
inductive EngineOp where
  | put (key value : Str)
  | del (key : Str)
  | flush
deriving Repr, DecidableEq

def runOp (s : Engine) : EngineOp → Option Engine
  | .put k v => enginePut s k v
  | .del k => engineDelete s k
  | .flush => engineFlush s

def runOps (s : Engine) : List EngineOp → Option Engine
  | [] => some s
  | op :: ops => (runOp s op).bind (fun s' => runOps s' ops)

/-! ## Predicates and concrete data used by the claims -/

/-- Strictly ascending keys (the writer's documented input contract). -/
def keysSorted (l : List Entry) : Prop :=
  l.Pairwise (fun a b => strLt a.key b.key = true)

instance (l : List Entry) : Decidable (keysSorted l) :=
  inferInstanceAs (Decidable (l.Pairwise _))

/-- Association lookup: value of the first entry carrying the key. -/
def lookupEntry (key : Str) : List Entry → Option Str
  | [] => none
  | e :: es => if e.key = key then some e.value else lookupEntry key es

/-- Absolute byte offset of the `i`-th data-block record in a written file. -/
def offs (entries : List Entry) (i : Nat) : Nat :=
  9 + ((entries.take i).map recLen).sum

/-- A WAL record as appended: timestamp, op, key, value. -/
def lineOf (r : Nat × Str × Str × Str) : List Nat :=
  decimalBytes r.1 ++ [PIPE] ++ r.2.1 ++ [PIPE] ++ r.2.2.1 ++ [PIPE] ++ r.2.2.2

/-- The WAL file produced by a sequence of `append` calls on a fresh WAL. -/
def walFileOf (recs : List (Nat × Str × Str × Str)) : List Nat :=
  recs.foldl (fun w r => walAppend w r.1 r.2.1 r.2.2.1 r.2.2.2) []

/-- Lines joined by `\n` (no trailing newline). -/
def joinNL : List (List Nat) → List Nat
  | [] => []
  | [l] => l
  | l :: ls => l ++ [NL] ++ joinNL ls

def okOp (op : Str) : Prop := op = PUTB ∨ op = DELETEB

def noPipeNoNL (s : Str) : Prop := ∀ b ∈ s, b ≠ PIPE ∧ b ≠ NL

def noNL (s : Str) : Prop := ∀ b ∈ s, b ≠ NL

/-- A placeholder reader (never observed: used only under `Option.getD` on
opens that are proved/checked to succeed). -/
def dummyReader : SSTableReader :=
  { buf := [], dataOffset := 0, indexOffset := 0, bloomOffset := 0
    entryCount := 0, bloom := bloomInit 0 0, sparseIndex := [] }

/-- Build a concrete table handle by writing and opening the given entries. -/
def mkHandle (lvl ts : Nat) (es : List Entry) : TableHandle :=
  { path := (lvl, ts), reader := (sstOpen (sstWrite es)).getD dummyReader }

/-- A concrete unsorted input for the writer. -/
def unsortedEntries : List Entry :=
  [{ key := strBytes "b", value := strBytes "1" },
   { key := strBytes "a", value := strBytes "2" }]

/-- Concrete execution exhibiting the compaction placement bug: two rounds of
four flushed level-0 tables, each round triggering a compaction into level 1.
The key `"x"` is first written as `"OLD"`, later overwritten with `"NEW"`;
no operation after the `put "x" "NEW"` mutates `"x"` again. -/
def bugOps : List EngineOp :=
  [.put (strBytes "x") (strBytes "OLD"), .flush,
   .put (strBytes "a1") (strBytes "v"), .flush,
   .put (strBytes "a2") (strBytes "v"), .flush,
   .put (strBytes "a3") (strBytes "v"), .flush,
   .put (strBytes "x") (strBytes "NEW"), .flush,
   .put (strBytes "b1") (strBytes "v"), .flush,
   .put (strBytes "b2") (strBytes "v"), .flush,
   .put (strBytes "b3") (strBytes "v"), .flush]

/-- The engine state after running `bugOps` from a fresh engine. -/
def bugRun : Option Engine := runOps (engineInit 100) bugOps

/-- Concrete compaction input for the placement claim: four level-0 tables
(timestamps 10, 20, 30, 40) and one pre-existing level-1 table (timestamp 5). -/
def c2State : CompState :=
  { levels :=
      [[mkHandle 0 40 [{ key := strBytes "d", value := strBytes "4" }],
        mkHandle 0 30 [{ key := strBytes "c", value := strBytes "3" }],
        mkHandle 0 20 [{ key := strBytes "b", value := strBytes "2" }],
        mkHandle 0 10 [{ key := strBytes "a", value := strBytes "1" }]],
       [mkHandle 1 5 [{ key := strBytes "e", value := strBytes "5" }]],
       [], [], []]
    files := []
    clock := 990 }


/-- Byte length of the data block of a written file. -/
def dataLenOf (entries : List Entry) : Nat := (dataBlockAux entries 0 9).1.length

/-- The `indexOffset` the writer records. -/
def idxOffOf (entries : List Entry) : Nat := 9 + dataLenOf entries

/-- The `bloomOffset` the writer records. -/
def bloomOffOf (entries : List Entry) : Nat :=
  idxOffOf entries + (indexBlock (dataBlockAux entries 0 9).2).length

/-- Everything before the footer in a written file. -/
def preFooter (entries : List Entry) : List Nat :=
  u32le SSTABLE_MAGIC ++ [SSTABLE_VERSION] ++ u32le entries.length ++
    (dataBlockAux entries 0 9).1 ++ indexBlock (dataBlockAux entries 0 9).2 ++
    bloomSerialize (writerBloom entries)

/-- The 16-byte footer of a written file. -/
def footerOf (entries : List Entry) : List Nat :=
  u32le 9 ++ u32le (idxOffOf entries) ++ u32le (bloomOffOf entries) ++ u32le SSTABLE_MAGIC

instance (op : Str) : Decidable (okOp op) :=
  inferInstanceAs (Decidable (_ ∨ _))

instance (s : Str) : Decidable (noPipeNoNL s) :=
  inferInstanceAs (Decidable (∀ b ∈ s, b ≠ PIPE ∧ b ≠ NL))

instance (s : Str) : Decidable (noNL s) :=
  inferInstanceAs (Decidable (∀ b ∈ s, b ≠ NL))

/-- Boolean form of "the last appended value does not end in whitespace". -/
def lastValueNotWsp (recs : List (Nat × Str × Str × Str)) : Bool :=
  recs.getLast?.all (fun r => r.2.2.2.getLast?.all (fun b => !isWsp b))

/-- Key of the `j`-th entry (with a default for out-of-range). -/
def keyAt (entries : List Entry) (j : Nat) : Str :=
  (entries.getD j { key := [], value := [] }).key

/-- Specification-level version of the reader's bounded record scan. -/
def scanRecList (key : Str) : List Entry → Option Str
  | [] => none
  | e :: es =>
    if e.key = key then some e.value
    else if strLt key e.key then none
    else scanRecList key es

-- ======================= theorems =======================

/-! ### Bit-level facts about the bloom filter -/

theorem testBit_foldl_lor_mono {f : Nat → Nat} (l : List Nat) (b0 : Nat) (j : Nat)
    (h : b0.testBit j = true) :
    (l.foldl (fun b i => b ||| f i) b0).testBit j = true := by
  induction l generalizing b0 with
  | nil => exact h
  | cons x xs ih =>
    exact ih (b0 ||| f x) (by simp [Nat.testBit_lor, h])

theorem testBit_foldl_lor_of_mem {f : Nat → Nat} (l : List Nat) (i j : Nat)
    (h : (f i).testBit j = true) :
    ∀ b0, i ∈ l → (l.foldl (fun b i => b ||| f i) b0).testBit j = true := by
  induction l with
  | nil => intro b0 hi; cases hi
  | cons x xs ih =>
    intro b0 hi
    rcases List.mem_cons.mp hi with rfl | hi'
    · exact testBit_foldl_lor_mono xs _ j (by simp [Nat.testBit_lor, h])
    · exact ih _ hi'

/-- `add` never clears a bit: every `mightContain` that held keeps holding. -/
theorem mightContain_bloomAdd_mono (bf : BloomFilter) (k k' : Str)
    (h : mightContain bf k = true) :
    mightContain (bloomAdd bf k') k = true := by
  simp only [mightContain, bloomAdd, List.all_eq_true] at h ⊢
  intro i hi
  exact testBit_foldl_lor_mono _ _ _ (h i hi)

/-- `add` sets every bit `mightContain` will test for the added key. -/
theorem mightContain_bloomAdd_self (bf : BloomFilter) (k : Str) :
    mightContain (bloomAdd bf k) k = true := by
  simp only [mightContain, bloomAdd, List.all_eq_true]
  intro i hi
  exact testBit_foldl_lor_of_mem (f := fun i => 2 ^ jsHash bf.size k i) _ i _
    Nat.testBit_two_pow_self _ hi

theorem mightContain_foldl_bloomAdd_mono (ks : List Str) (bf : BloomFilter) (k : Str)
    (h : mightContain bf k = true) :
    mightContain (ks.foldl bloomAdd bf) k = true := by
  induction ks generalizing bf with
  | nil => exact h
  | cons x xs ih => exact ih _ (mightContain_bloomAdd_mono bf k x h)

/-- No false negatives: a key added somewhere in the fold tests positive. -/
theorem mightContain_foldl_bloomAdd_of_mem (ks : List Str) (k : Str) :
    ∀ bf, k ∈ ks → mightContain (ks.foldl bloomAdd bf) k = true := by
  induction ks with
  | nil => intro bf hk; cases hk
  | cons x xs ih =>
    intro bf hk
    rcases List.mem_cons.mp hk with rfl | hk'
    · exact mightContain_foldl_bloomAdd_mono xs _ k (mightContain_bloomAdd_self bf k)
    · exact ih _ hk'

/-- **C10.** `BloomFilter.add` only ever sets bits (it ORs `1 << bitIndex`
into a byte and never clears), so `mightContain` is monotone under insertion:
any key testing positive still tests positive after adding any other key. -/
theorem C10_mightContain_monotone (bf : BloomFilter) (k k' : Str)
    (h : mightContain bf k = true) :
    mightContain (bloomAdd bf k') k = true :=
  mightContain_bloomAdd_mono bf k k' h

theorem C10_witness :
    mightContain (bloomAdd (bloomInit BLOOM_FILTER_SIZE BLOOM_HASH_COUNT) (strBytes "a"))
        (strBytes "a") = true ∧
    mightContain
        (bloomAdd (bloomAdd (bloomInit BLOOM_FILTER_SIZE BLOOM_HASH_COUNT) (strBytes "a"))
          (strBytes "b")) (strBytes "a") = true := by
  constructor
  · decide
  · exact C10_mightContain_monotone _ (strBytes "a") (strBytes "b") (by decide)

/-! ### Serialization round trip -/

theorem bytesToNat_digits (k : Nat) :
    ∀ b : Nat, b < 2 ^ (8 * k) →
      bytesToNat ((List.range k).map (fun j => b / 2 ^ (8 * j) % 256)) = b := by
  induction k with
  | zero =>
    intro b hb
    interval_cases b
    rfl
  | succ k ih =>
    intro b hb
    rw [List.range_succ_eq_map, List.map_cons, List.map_map]
    have hmap :
        (List.range k).map ((fun j => b / 2 ^ (8 * j) % 256) ∘ Nat.succ) =
          (List.range k).map (fun j => b / 256 / 2 ^ (8 * j) % 256) := by
      refine List.map_congr_left (fun j _ => ?_)
      have : (8 * (j + 1)) = 8 * j + 8 := by ring
      simp only [Function.comp_apply, Nat.succ_eq_add_one, this, pow_add]
      rw [Nat.div_div_eq_div_mul, Nat.mul_comm (2 ^ (8 * j)) (2 ^ 8)]
      norm_num [Nat.div_div_eq_div_mul]
    have hdiv : b / 256 < 2 ^ (8 * k) := by
      have h256 : (2 : Nat) ^ (8 * (k + 1)) = 2 ^ (8 * k) * 256 := by
        rw [Nat.mul_succ, pow_add]; norm_num
      rw [h256] at hb
      omega
    simp only [bytesToNat, hmap, ih (b / 256) hdiv]
    omega

theorem readU32_u32le (n : Nat) (rest : List Nat) (h : n < 2 ^ 32) :
    readU32 (u32le n ++ rest) 0 = n := by
  simp only [readU32, u32le, List.cons_append, List.nil_append, List.getD_cons_zero,
    List.getD_cons_succ]
  omega

/-- `deserialize ∘ serialize` is the identity on filters whose bit mask fits
its byte array (which every filter built by `add`s satisfies).  Node's
`writeUInt8` additionally requires `hashCount < 256` (it throws otherwise);
the defaults are 1024 bits and 7 hashes. -/
theorem bloom_roundtrip (bf : BloomFilter) (h32 : bf.size < 2 ^ 32)
    (hbits : bf.bits < 2 ^ (8 * bloomNumBytes bf.size)) :
    bloomDeserialize (bloomSerialize bf) = bf := by
  have hsz : readU32 (bloomSerialize bf) 0 = bf.size := by
    simpa [bloomSerialize, List.append_assoc] using
      readU32_u32le bf.size ([bf.hashCount] ++
        (List.range (bloomNumBytes bf.size)).map (fun j => bf.bits / 2 ^ (8 * j) % 256)) h32
  have hdrop : (bloomSerialize bf).drop 5 =
      (List.range (bloomNumBytes bf.size)).map (fun j => bf.bits / 2 ^ (8 * j) % 256) := by
    simp [bloomSerialize, u32le]
  have hhc : (bloomSerialize bf).getD 4 0 = bf.hashCount := by
    simp [bloomSerialize, u32le]
  simp only [bloomDeserialize, hsz, hdrop, hhc]
  have hlen : ((List.range (bloomNumBytes bf.size)).map
      (fun j => bf.bits / 2 ^ (8 * j) % 256)).length = bloomNumBytes bf.size := by
    simp
  rw [List.take_of_length_le (le_of_eq hlen), bytesToNat_digits _ _ hbits]

theorem foldl_lor_lt {f : Nat → Nat} (l : List Nat) (n : Nat) (hf : ∀ i ∈ l, f i < 2 ^ n) :
    ∀ b0, b0 < 2 ^ n → l.foldl (fun b i => b ||| f i) b0 < 2 ^ n := by
  induction l with
  | nil => intro b0 h; exact h
  | cons x xs ih =>
    intro b0 h
    exact ih (fun i hi => hf i (List.mem_cons_of_mem _ hi)) _
      (Nat.or_lt_two_pow h (hf x (List.mem_cons_self _ _)))

/-- Through any sequence of `add`s, `size`/`hashCount` are unchanged and the
bit mask stays below `2 ^ (8 · ceil(size/8))`. -/
theorem foldl_bloomAdd_invariant (ks : List Str) (size : Nat) (hpos : 0 < size) :
    ∀ bf : BloomFilter, bf.size = size → bf.bits < 2 ^ (8 * bloomNumBytes size) →
      (ks.foldl bloomAdd bf).size = size ∧
      (ks.foldl bloomAdd bf).hashCount = bf.hashCount ∧
      (ks.foldl bloomAdd bf).bits < 2 ^ (8 * bloomNumBytes size) := by
  induction ks with
  | nil => exact fun bf hs hb => ⟨hs, rfl, hb⟩
  | cons k ks ih =>
    intro bf hs hb
    have hstep : (bloomAdd bf k).bits < 2 ^ (8 * bloomNumBytes size) := by
      refine foldl_lor_lt _ _ (fun i _ => ?_) _ hb
      have hlt : jsHash bf.size k i < size := by
        rw [hs] at *
        exact Nat.mod_lt _ hpos
      have hle : size ≤ 8 * bloomNumBytes size := by
        simp only [bloomNumBytes]; omega
      exact Nat.pow_lt_pow_right (by omega) (by omega)
    have := ih (bloomAdd bf k) (by simp [bloomAdd, hs]) hstep
    simpa [bloomAdd] using this

/-- **C8.** Every key previously added to a bloom filter tests positive, and
still tests positive after the `serialize`/`deserialize` round trip.
(`0 < size` because the source reduces hashes `mod size`; `size < 2^32` and
`hashCount < 256` because `serialize` stores them as u32/u8.) -/
theorem C8_bloom_no_false_negatives_roundtrip (size hc : Nat) (ks : List Str) (k : Str)
    (hpos : 0 < size) (h32 : size < 2 ^ 32) (hhc : hc < 256) (hk : k ∈ ks) :
    mightContain (ks.foldl bloomAdd (bloomInit size hc)) k = true ∧
    mightContain
      (bloomDeserialize (bloomSerialize (ks.foldl bloomAdd (bloomInit size hc)))) k = true := by
  have hmem := mightContain_foldl_bloomAdd_of_mem ks k (bloomInit size hc) hk
  have hinv := foldl_bloomAdd_invariant ks size hpos (bloomInit size hc) rfl (by positivity)
  have hrt := bloom_roundtrip (ks.foldl bloomAdd (bloomInit size hc))
    (by rw [hinv.1]; exact h32) (by rw [hinv.1]; exact hinv.2.2)
  exact ⟨hmem, by rw [hrt]; exact hmem⟩

theorem C8_witness :
    strBytes "b" ∈ [strBytes "a", strBytes "b"] ∧
    mightContain
      ([strBytes "a", strBytes "b"].foldl bloomAdd
        (bloomInit BLOOM_FILTER_SIZE BLOOM_HASH_COUNT)) (strBytes "b") = true ∧
    mightContain
      (bloomDeserialize (bloomSerialize
        ([strBytes "a", strBytes "b"].foldl bloomAdd
          (bloomInit BLOOM_FILTER_SIZE BLOOM_HASH_COUNT)))) (strBytes "b") = true := by
  refine ⟨by decide, ?_⟩
  have := C8_bloom_no_false_negatives_roundtrip BLOOM_FILTER_SIZE BLOOM_HASH_COUNT
    [strBytes "a", strBytes "b"] (strBytes "b") (by decide) (by decide) (by decide) (by decide)
  exact this

/-! ### MemTable facts and C9 -/

theorem strLt_irrefl (a : Str) : strLt a a = false := by
  induction a with
  | nil => rfl
  | cons x xs ih => simp [strLt, ih]

/-- When the key is absent, the skip-list `put` takes its insert branch. -/
theorem slPut_snd_of_get_none (key value : Str) (l : List Entry)
    (h : slGet key l = none) : (slPut key value l).2 = none := by
  induction l with
  | nil => rfl
  | cons e es ih =>
    by_cases hlt : strLt e.key key = true
    · simp only [slGet, hlt, if_true] at h
      simp [slPut, hlt, ih h]
    · by_cases heq : e.key = key
      · simp [slGet, hlt, heq, strLt_irrefl] at h
      · simp [slPut, hlt, heq]

/-- After `put key value`, `get key` finds exactly `value`. -/
theorem slGet_slPut_self (key value : Str) (l : List Entry) :
    slGet key (slPut key value l).1 = some value := by
  induction l with
  | nil => simp [slPut, slGet, strLt_irrefl]
  | cons e es ih =>
    by_cases hlt : strLt e.key key = true
    · simp [slPut, hlt, slGet, ih]
    · by_cases heq : e.key = key
      · simp [slPut, hlt, heq, slGet, strLt_irrefl]
      · simp [slPut, hlt, heq, slGet, strLt_irrefl]

/-- **C9.** `delete(k)` for a key absent from the MemTable is not a no-op: it
inserts a `(k, TOMBSTONE)` node, so `count` grows by one and `byteSize` by
`len(k) + len(TOMBSTONE)`, while `get(k)` reports absent.  (The size
hypothesis keeps `_maybeFlush` from firing, as the claim's "grow toward the
flush threshold" presumes.) -/
theorem C9_delete_absent_grows (s : Engine) (key : Str)
    (habs : mtGet s.memTable key = none)
    (hsize : s.memTable.byteSize + key.length + TOMBSTONE.length < MEMTABLE_SIZE_THRESHOLD) :
    ∃ s', engineDelete s key = some s' ∧
      s'.memTable.count = s.memTable.count + 1 ∧
      s'.memTable.byteSize = s.memTable.byteSize + key.length + TOMBSTONE.length ∧
      engineGet s' key = none := by
  have hsnd := slPut_snd_of_get_none key TOMBSTONE s.memTable.chain habs
  have hpair : slPut key TOMBSTONE s.memTable.chain =
      ((slPut key TOMBSTONE s.memTable.chain).1, none) := by
    rw [← hsnd]
  have hmt : mtDelete s.memTable key =
      { chain := (slPut key TOMBSTONE s.memTable.chain).1
        count := s.memTable.count + 1
        byteSize := s.memTable.byteSize + key.length + TOMBSTONE.length } := by
    rw [mtDelete, mtPut, hpair]
  refine ⟨{ memTable := mtDelete s.memTable key
            wal := walAppend s.wal s.clock DELETEB key TOMBSTONE
            levels := s.levels, files := s.files, clock := s.clock + 1 }, ?_, ?_, ?_, ?_⟩
  · rw [engineDelete, engineMaybeFlush]
    simp only [hmt]
    rw [if_neg (by simpa using Nat.not_le_of_lt hsize)]
  · simp [hmt]
  · simp [hmt]
  · simp [engineGet, mtGet, hmt, slGet_slPut_self]

theorem C9_witness :
    mtGet (engineInit 100).memTable (strBytes "k") = none ∧
    (engineInit 100).memTable.byteSize + (strBytes "k").length + TOMBSTONE.length <
      MEMTABLE_SIZE_THRESHOLD ∧
    (∃ s', engineDelete (engineInit 100) (strBytes "k") = some s' ∧
      s'.memTable.count = (engineInit 100).memTable.count + 1 ∧
      s'.memTable.byteSize =
        (engineInit 100).memTable.byteSize + (strBytes "k").length + TOMBSTONE.length ∧
      engineGet s' (strBytes "k") = none) :=
  ⟨by decide, by decide,
    C9_delete_absent_grows (engineInit 100) (strBytes "k") (by decide) (by decide)⟩

/-! ### Positional read lemmas -/

theorem readU16_append_right (l l' : List Nat) (pos : Nat) (h : l.length ≤ pos) :
    readU16 (l ++ l') pos = readU16 l' (pos - l.length) := by
  have h1 : pos + 1 - l.length = pos - l.length + 1 := by omega
  simp only [readU16, List.getD_append_right l l' 0 pos h,
    List.getD_append_right l l' 0 (pos + 1) (by omega), h1]

theorem readU32_append_right (l l' : List Nat) (pos : Nat) (h : l.length ≤ pos) :
    readU32 (l ++ l') pos = readU32 l' (pos - l.length) := by
  have h1 : pos + 1 - l.length = pos - l.length + 1 := by omega
  have h2 : pos + 2 - l.length = pos - l.length + 2 := by omega
  have h3 : pos + 3 - l.length = pos - l.length + 3 := by omega
  simp only [readU32, List.getD_append_right l l' 0 pos h,
    List.getD_append_right l l' 0 (pos + 1) (by omega),
    List.getD_append_right l l' 0 (pos + 2) (by omega),
    List.getD_append_right l l' 0 (pos + 3) (by omega), h1, h2, h3]

theorem readU16_append_left (l l' : List Nat) (pos : Nat) (h : pos + 2 ≤ l.length) :
    readU16 (l ++ l') pos = readU16 l pos := by
  simp only [readU16, List.getD_append l l' 0 pos (by omega),
    List.getD_append l l' 0 (pos + 1) (by omega)]

theorem readU32_append_left (l l' : List Nat) (pos : Nat) (h : pos + 4 ≤ l.length) :
    readU32 (l ++ l') pos = readU32 l pos := by
  simp only [readU32, List.getD_append l l' 0 pos (by omega),
    List.getD_append l l' 0 (pos + 1) (by omega),
    List.getD_append l l' 0 (pos + 2) (by omega),
    List.getD_append l l' 0 (pos + 3) (by omega)]

theorem subarray_append_right (l l' : List Nat) (s e : Nat) :
    subarray (l ++ l') (l.length + s) (l.length + e) = subarray l' s e := by
  simp only [subarray, List.take_append, List.drop_append]

theorem subarray_append_left (l l' : List Nat) (s e : Nat) (h : e ≤ l.length) :
    subarray (l ++ l') s e = subarray l s e := by
  simp only [subarray, List.take_append_of_le_length h]

/-- The written file splits as `preFooter ++ footer`. -/
theorem sstWrite_decomp (entries : List Entry) :
    sstWrite entries = preFooter entries ++ footerOf entries := by
  simp [sstWrite, preFooter, footerOf, dataLenOf, idxOffOf, bloomOffOf, List.append_assoc]

theorem footerOf_length (entries : List Entry) : (footerOf entries).length = 16 := by
  simp [footerOf, u32le]

/-- Opening a written file always succeeds: both magics check out.  (The
writer performs no sortedness validation, so this holds for *any* input.) -/
theorem sstOpen_sstWrite_isSome (entries : List Entry) :
    sstOpen (sstWrite entries) ≠ none := by
  have hdec := sstWrite_decomp entries
  have hlen : (sstWrite entries).length = (preFooter entries).length + 16 := by
    rw [hdec, List.length_append, footerOf_length]
  have hstart : (sstWrite entries).length - 16 = (preFooter entries).length := by omega
  have hfooter : readU32 (sstWrite entries) ((sstWrite entries).length - 16 + 12) =
      SSTABLE_MAGIC := by
    rw [hstart, hdec, readU32_append_right _ _ _ (by omega)]
    have h12 : (preFooter entries).length + 12 - (preFooter entries).length = 12 := by omega
    rw [h12]
    have : footerOf entries =
        (u32le 9 ++ u32le (idxOffOf entries) ++ u32le (bloomOffOf entries)) ++
          u32le SSTABLE_MAGIC := by
      simp [footerOf, List.append_assoc]
    rw [this, readU32_append_right _ _ _ (by simp [u32le]),
      show 12 - ((u32le 9 ++ u32le (idxOffOf entries) ++ u32le (bloomOffOf entries)).length) = 0
        by simp [u32le]]
    have := readU32_u32le SSTABLE_MAGIC [] (by norm_num [SSTABLE_MAGIC])
    simpa using this
  have hheader : readU32 (sstWrite entries) 0 = SSTABLE_MAGIC := by
    have : sstWrite entries = u32le SSTABLE_MAGIC ++
        ([SSTABLE_VERSION] ++ u32le entries.length ++ (dataBlockAux entries 0 9).1 ++
          indexBlock (dataBlockAux entries 0 9).2 ++ bloomSerialize (writerBloom entries) ++
          footerOf entries) := by
      rw [hdec]; simp [preFooter, List.append_assoc]
    rw [this, readU32_u32le SSTABLE_MAGIC _ (by norm_num [SSTABLE_MAGIC])]
  rw [sstOpen]
  simp only [hfooter, hheader]
  simp

/-- **C7 counterexample.**  `unsortedEntries` is not ascending by key, yet
`SSTableWriter.write` raises nothing and produces a file that even opens
cleanly — no `UnsortedInput` failure exists in the code. -/
theorem C7_counterexample :
    ¬ keysSorted unsortedEntries ∧ sstOpen (sstWrite unsortedEntries) ≠ none := by
  constructor
  · decide
  · exact sstOpen_sstWrite_isSome unsortedEntries

/-- **C7 (amended).**  `SSTableWriter.write` performs no sortedness check and
never fails with `UnsortedInput`: for every input sequence within the ranges
Node's bounded buffer writes accept (key lengths below `2^16`, value lengths
below `2^32`, bloom offset below `2^32` — the same bounds C5 assumes), sorted
or not, it writes a file whose header and footer magics are valid, so `open`
accepts it.  The hypotheses delimit the inputs on which the byte model is
faithful (`writeUInt16LE`/`writeUInt32LE` throw out of range, see `u16le`);
within them the writer unconditionally succeeds. -/
theorem C7_write_never_validates (entries : List Entry)
    (hklen : ∀ e ∈ entries, e.key.length < 2 ^ 16)
    (hvlen : ∀ e ∈ entries, e.value.length < 2 ^ 32)
    (h32 : bloomOffOf entries < 2 ^ 32) :
    sstOpen (sstWrite entries) ≠ none :=
  sstOpen_sstWrite_isSome entries

theorem C7_witness :
    (∀ e ∈ unsortedEntries, e.key.length < 2 ^ 16) ∧
    (∀ e ∈ unsortedEntries, e.value.length < 2 ^ 32) ∧
    bloomOffOf unsortedEntries < 2 ^ 32 ∧
    sstOpen (sstWrite unsortedEntries) ≠ none :=
  ⟨by decide, by decide, by decide,
    C7_write_never_validates unsortedEntries (by decide) (by decide) (by decide)⟩

/-! ### C6: tombstone policy during compaction -/

theorem hasOlderLevels_iff (levels : Levels) (lvl : Nat) :
    hasOlderLevels levels lvl = true ↔
      ∃ m, lvl < m ∧ m < MAX_LEVELS ∧ levels.getD m [] ≠ [] := by
  simp only [hasOlderLevels, List.any_eq_true, List.mem_range'_1]
  constructor
  · rintro ⟨m, ⟨h1, h2⟩, h3⟩
    refine ⟨m, by omega, by omega, by simpa using h3⟩
  · rintro ⟨m, h1, h2, h3⟩
    refine ⟨m, ⟨by omega, by omega⟩, by simpa using h3⟩

/-- **C6.**  When level `L` is ripe for compaction (`≥ SIZE_RATIO` tables),
the `hasOlderLevels` scan is false exactly when every level `M > L` is empty
at that moment; in that case every entry of the written merge output is a
non-tombstone (all tombstones dropped), and otherwise the output is the raw
k-way merge (all tombstone entries retained). -/
theorem C6_tombstone_policy (levels : Levels) (lvl : Nat)
    (hcount : SIZE_RATIO ≤ (levels.getD lvl []).length) :
    (hasOlderLevels levels lvl = false ↔
      ∀ m, lvl < m → m < MAX_LEVELS → levels.getD m [] = []) ∧
    (hasOlderLevels levels lvl = false →
      ∀ e ∈ compactMerged levels lvl, e.value ≠ TOMBSTONE) ∧
    (hasOlderLevels levels lvl = true →
      compactMerged levels lvl =
        kWayMerge ((levels.getD lvl []).map (fun t => sstEntries t.reader))) := by
  refine ⟨?_, ?_, ?_⟩
  · constructor
    · intro hf m hm1 hm2
      by_contra hne
      rw [Bool.eq_false_iff] at hf
      exact hf ((hasOlderLevels_iff levels lvl).mpr ⟨m, hm1, hm2, hne⟩)
    · intro hall
      rw [Bool.eq_false_iff]
      intro ht
      obtain ⟨m, h1, h2, h3⟩ := (hasOlderLevels_iff levels lvl).mp ht
      exact h3 (hall m h1 h2)
  · intro hf e he
    simp only [compactMerged, hf, Bool.false_eq_true, if_false] at he
    have := (List.mem_filter.mp he).2
    simpa using this
  · intro ht
    simp [compactMerged, ht]

theorem C6_witness :
    SIZE_RATIO ≤ (c2State.levels.getD 0 []).length ∧
    ((hasOlderLevels c2State.levels 0 = false ↔
        ∀ m, 0 < m → m < MAX_LEVELS → c2State.levels.getD m [] = []) ∧
      (hasOlderLevels c2State.levels 0 = false →
        ∀ e ∈ compactMerged c2State.levels 0, e.value ≠ TOMBSTONE) ∧
      (hasOlderLevels c2State.levels 0 = true →
        compactMerged c2State.levels 0 =
          kWayMerge ((c2State.levels.getD 0 []).map (fun t => sstEntries t.reader)))) :=
  ⟨by decide, C6_tombstone_policy c2State.levels 0 (by decide)⟩

/-! ### C1, C2, C3: the compaction placement bug

`Compaction.run` appends the freshly merged SSTable to the **end** of
`tables[L+1]` (`nextTables.push(...)`), although the engine's own levels
comment and the read path require index 0 to be the newest table.  Once a
compaction writes into a level that already holds a table, the newest data
sits behind older data, and `get` serves the stale value. -/

/-- **C2 counterexample.**  Compacting four level-0 tables into a level 1
that already holds a table (timestamp 5) leaves level 1 as
`[(1, 5), (1, 990)]`: the new table (written at clock 990 > 5) is at the
*last* position, not at position 0 as claimed. -/
theorem C2_counterexample :
    (compactionRun c2State).map (fun st => (st.levels.getD 1 []).map TableHandle.path) =
      some [(1, 5), (1, 990)] ∧ (5 : Nat) < 990 := by
  constructor
  · decide
  · decide

/-- **C1 counterexample.**  In the `bugOps` execution the last mutation of
`"x"` is `put "x" "NEW"`; after the subsequent fillers, flushes and the second
compaction, `get "x"` returns `"OLD"` — the stale level-1 table is consulted
first because the newer merged table was pushed behind it. -/
theorem C1_counterexample :
    bugRun.map (fun s => engineGet s (strBytes "x")) = some (some (strBytes "OLD")) ∧
    strBytes "OLD" ≠ strBytes "NEW" := by
  constructor
  · decide
  · decide

/-- **C3 counterexample.**  Before a restart the `bugOps` engine serves
`get "x" = "OLD"`; re-opening the same data directory re-sorts each level
newest-first by file-name timestamp, after which `get "x" = "NEW"` — the
restarted engine answers differently from the original. -/
theorem C3_counterexample :
    bugRun.map (fun s => engineGet s (strBytes "x")) = some (some (strBytes "OLD")) ∧
    bugRun.map (fun s => engineGet (loadEngine s.files s.wal s.clock) (strBytes "x")) =
      some (some (strBytes "NEW")) ∧
    strBytes "OLD" ≠ strBytes "NEW" := by
  refine ⟨by decide, by decide, by decide⟩

/-! ### C4: WAL append/recover round trip -/

theorem digitsAux_spec (fuel : Nat) :
    ∀ n, n < fuel → digitsAux fuel n ≠ [] ∧ ∀ b ∈ digitsAux fuel n, 48 ≤ b ∧ b ≤ 57 := by
  induction fuel with
  | zero => intro n h; omega
  | succ fuel ih =>
    intro n h
    by_cases h10 : n < 10
    · refine ⟨by simp [digitsAux, h10], ?_⟩
      intro b hb
      simp [digitsAux, h10] at hb
      omega
    · have hrec := ih (n / 10) (by omega)
      simp only [digitsAux, h10, if_false]
      refine ⟨by simp, ?_⟩
      intro b hb
      rcases List.mem_append.mp hb with h1 | h2
      · exact hrec.2 b h1
      · simp at h2; omega

theorem decimalBytes_spec (n : Nat) :
    decimalBytes n ≠ [] ∧ ∀ b ∈ decimalBytes n, 48 ≤ b ∧ b ≤ 57 :=
  digitsAux_spec (n + 1) n (by omega)

theorem splitFirst_append (c : Nat) (A B : List Nat) (hA : c ∉ A) :
    splitFirst c (A ++ c :: B) = some (A, B) := by
  induction A with
  | nil => simp [splitFirst]
  | cons a as ih =>
    have hne : a ≠ c := fun h => hA (h ▸ List.mem_cons_self _ _)
    simp [splitFirst, hne, ih (fun h => hA (List.mem_cons_of_mem _ h))]

theorem parseWalLine_lineOf (r : Nat × Str × Str × Str)
    (hop : PIPE ∉ r.2.1) (hkey : PIPE ∉ r.2.2.1) :
    parseWalLine (lineOf r) = some (r.2.1, r.2.2.1, r.2.2.2) := by
  have hts : PIPE ∉ decimalBytes r.1 := by
    intro hmem
    have := (decimalBytes_spec r.1).2 _ hmem
    simp [PIPE] at this
  have hshape : lineOf r =
      decimalBytes r.1 ++ PIPE :: (r.2.1 ++ PIPE :: (r.2.2.1 ++ PIPE :: r.2.2.2)) := by
    simp [lineOf, List.append_assoc]
  simp only [parseWalLine, hshape, splitFirst_append _ _ _ hts,
    splitFirst_append _ _ _ hop, splitFirst_append _ _ _ hkey]

theorem splitFirst_count (c : Nat) (l : List Nat) :
    ∀ A B, splitFirst c l = some (A, B) → l.count c = B.count c + 1 := by
  induction l with
  | nil => intro A B h; simp [splitFirst] at h
  | cons b bs ih =>
    intro A B h
    by_cases hb : b = c
    · subst hb
      have h' : (([] : List Nat), bs) = (A, B) := by simpa [splitFirst] using h
      injection h' with h1 h2
      rw [List.count_cons_self, h2]
    · simp only [splitFirst, hb, if_false] at h
      cases hsp : splitFirst c bs with
      | none => rw [hsp] at h; simp at h
      | some p =>
        rw [hsp] at h
        simp only [Option.map_some', Option.some.injEq, Prod.mk.injEq] at h
        have hbs := ih p.1 p.2 (by rw [hsp])
        simp [List.count_cons, hb, hbs, h.2]

theorem parseWalLine_malformed (line : List Nat) (h : line.count PIPE < 3) :
    parseWalLine line = none := by
  rw [parseWalLine]
  cases h1 : splitFirst PIPE line with
  | none => rfl
  | some p1 =>
    simp only
    cases h2 : splitFirst PIPE p1.2 with
    | none => rfl
    | some p2 =>
      simp only
      cases h3 : splitFirst PIPE p2.2 with
      | none => rfl
      | some p3 =>
        exfalso
        have c1 := splitFirst_count PIPE line p1.1 p1.2 (by rw [h1])
        have c2 := splitFirst_count PIPE p1.2 p2.1 p2.2 (by rw [h2])
        have c3 := splitFirst_count PIPE p2.2 p3.1 p3.2 (by rw [h3])
        omega

theorem splitOnByte_ne_nil (c : Nat) (l : List Nat) : splitOnByte c l ≠ [] := by
  cases l with
  | nil => simp [splitOnByte]
  | cons b bs =>
    cases hsp : splitOnByte c bs with
    | nil => simp [splitOnByte, hsp]
    | cons h t =>
      simp only [splitOnByte, hsp]
      split <;> simp

theorem splitOnByte_no_sep (c : Nat) (l : List Nat) (h : c ∉ l) : splitOnByte c l = [l] := by
  induction l with
  | nil => rfl
  | cons b bs ih =>
    have hb : b ≠ c := fun e => h (e ▸ List.mem_cons_self _ _)
    have hrec := ih (fun e => h (List.mem_cons_of_mem _ e))
    simp [splitOnByte, hrec, hb]

theorem splitOnByte_append (c : Nat) (A B : List Nat) (hA : c ∉ A) :
    splitOnByte c (A ++ c :: B) = A :: splitOnByte c B := by
  induction A with
  | nil =>
    cases hsp : splitOnByte c B with
    | nil => exact absurd hsp (splitOnByte_ne_nil c B)
    | cons h t => simp [splitOnByte, hsp]
  | cons a as ih =>
    have ha : a ≠ c := fun e => hA (e ▸ List.mem_cons_self _ _)
    have hrec := ih (fun e => hA (List.mem_cons_of_mem _ e))
    simp only [List.cons_append, splitOnByte]
    rw [show splitOnByte c (as.append (c :: B)) = as :: splitOnByte c B from hrec]
    simp [ha]

theorem trimBytes_append_nl (l : List Nat)
    (hhead : ∀ b, l.head? = some b → isWsp b = false)
    (hlast : ∀ b, l.getLast? = some b → isWsp b = false) :
    trimBytes (l ++ [NL]) = l := by
  cases l with
  | nil => rfl
  | cons a l' =>
    have ha : isWsp a = false := hhead a rfl
    rw [trimBytes, List.cons_append, List.dropWhile_cons, ha]
    simp only [Bool.false_eq_true, if_false]
    obtain ⟨b, hb⟩ : ∃ b, (a :: l').getLast? = some b :=
      ⟨(a :: l').getLast (by simp), List.getLast?_eq_getLast _ _⟩
    have hbw := hlast b hb
    have hrev : (a :: l').reverse.head? = some b := by rw [List.head?_reverse]; exact hb
    cases hrv : (a :: l').reverse with
    | nil => simp at hrv
    | cons x xs =>
      rw [hrv] at hrev
      have hx : x = b := by simpa using hrev
      have hshape : (a :: (l' ++ [NL])).reverse = NL :: x :: xs := by
        rw [show a :: (l' ++ [NL]) = (a :: l') ++ [NL] from rfl, List.reverse_append, hrv]
        rfl
      rw [hshape, List.dropWhile_cons, show isWsp NL = true from rfl]
      simp only [if_true]
      rw [List.dropWhile_cons, show isWsp x = false from by rw [hx]; exact hbw]
      simp only [Bool.false_eq_true, if_false]
      rw [← hrv, List.reverse_reverse]

theorem walFileOf_eq_flatten (recs : List (Nat × Str × Str × Str)) :
    walFileOf recs = (recs.map (fun r => lineOf r ++ [NL])).flatten := by
  suffices h : ∀ w, recs.foldl (fun w r => walAppend w r.1 r.2.1 r.2.2.1 r.2.2.2) w =
      w ++ (recs.map (fun r => lineOf r ++ [NL])).flatten by
    simpa using h []
  induction recs with
  | nil => simp
  | cons r rest ih =>
    intro w
    rw [List.foldl_cons, ih]
    simp [walAppend, lineOf, List.append_assoc]

theorem flatten_map_nl (lines : List (List Nat)) (h : lines ≠ []) :
    (lines.map (fun l => l ++ [NL])).flatten = joinNL lines ++ [NL] := by
  induction lines with
  | nil => cases h rfl
  | cons l ls ih =>
    cases ls with
    | nil => simp [joinNL]
    | cons l2 ls2 =>
      rw [List.map_cons, List.flatten_cons, ih (by simp)]
      simp [joinNL, List.append_assoc]

theorem splitOnByte_joinNL (lines : List (List Nat)) (h : lines ≠ [])
    (hnl : ∀ l ∈ lines, NL ∉ l) :
    splitOnByte NL (joinNL lines) = lines := by
  induction lines with
  | nil => cases h rfl
  | cons l ls ih =>
    cases ls with
    | nil => simpa [joinNL] using splitOnByte_no_sep NL l (hnl l (by simp))
    | cons l2 ls2 =>
      rw [show joinNL (l :: l2 :: ls2) = l ++ NL :: joinNL (l2 :: ls2) from by
          simp [joinNL]]
      rw [splitOnByte_append NL _ _ (hnl l (by simp))]
      rw [ih (by simp) (fun x hx => hnl x (List.mem_cons_of_mem _ hx))]

theorem joinNL_ne_nil (lines : List (List Nat)) (h : lines ≠ [])
    (hne : ∀ l ∈ lines, l ≠ []) : joinNL lines ≠ [] := by
  cases lines with
  | nil => cases h rfl
  | cons l ls =>
    cases ls with
    | nil => simpa [joinNL] using hne l (by simp)
    | cons l2 ls2 =>
      simp only [joinNL]
      intro hcontra
      rcases List.append_eq_nil.mp ((List.append_eq_nil.mp hcontra).1) with ⟨h1, _⟩
      exact hne l (by simp) h1

theorem joinNL_head? (lines : List (List Nat)) (hne : ∀ l ∈ lines, l ≠ []) :
    ∀ l0, lines.head? = some l0 → (joinNL lines).head? = l0.head? := by
  cases lines with
  | nil => intro l0 h; cases h
  | cons l ls =>
    intro l0 h
    have hl0 : l = l0 := by simpa using h
    subst hl0
    cases ls with
    | nil => simp [joinNL]
    | cons l2 ls2 =>
      simp only [joinNL]
      cases hl : l with
      | nil => exact absurd hl (hne l (by simp))
      | cons x xs => simp

theorem joinNL_getLast? (lines : List (List Nat)) (hne : ∀ l ∈ lines, l ≠ []) :
    ∀ ln, lines.getLast? = some ln → (joinNL lines).getLast? = ln.getLast? := by
  induction lines with
  | nil => intro ln h; cases h
  | cons l ls ih =>
    intro ln h
    cases ls with
    | nil =>
      have : l = ln := by simpa using h
      subst this
      simp [joinNL]
    | cons l2 ls2 =>
      have hlast : (l2 :: ls2).getLast? = some ln := by
        rw [← h]
        exact List.getLast?_cons_cons.symm
      have hjoin_ne : joinNL (l2 :: ls2) ≠ [] :=
        joinNL_ne_nil _ (by simp) (fun x hx => hne x (List.mem_cons_of_mem _ hx))
      rw [show joinNL (l :: l2 :: ls2) = l ++ (NL :: joinNL (l2 :: ls2)) from by
          simp [joinNL]]
      rw [List.getLast?_append_of_ne_nil _ (by simp)]
      rw [show (NL :: joinNL (l2 :: ls2)) = [NL] ++ joinNL (l2 :: ls2) from rfl]
      rw [List.getLast?_append_of_ne_nil _ hjoin_ne]
      exact ih (fun x hx => hne x (List.mem_cons_of_mem _ hx)) ln hlast

theorem filterMap_all_some {α β : Type} (f : α → Option β) (g : α → β) (l : List α)
    (h : ∀ a ∈ l, f a = some (g a)) : l.filterMap f = l.map g := by
  induction l with
  | nil => rfl
  | cons a as ih =>
    rw [List.filterMap_cons, h a (by simp), List.map_cons,
      ih (fun x hx => h x (List.mem_cons_of_mem _ hx))]

theorem lineOf_ne_nil (r : Nat × Str × Str × Str) : lineOf r ≠ [] := by
  rw [lineOf]
  simp [(decimalBytes_spec r.1).1]

theorem lineOf_head?_ok (r : Nat × Str × Str × Str) :
    ∀ b, (lineOf r).head? = some b → isWsp b = false := by
  intro b hb
  rw [lineOf, List.append_assoc, List.append_assoc, List.append_assoc, List.append_assoc,
    List.append_assoc, List.head?_append_of_ne_nil _ (decimalBytes_spec r.1).1] at hb
  have hd := (decimalBytes_spec r.1).2 b (by
    cases hdec : decimalBytes r.1 with
    | nil => exact absurd hdec (decimalBytes_spec r.1).1
    | cons x xs =>
      rw [hdec] at hb
      simp only [List.head?_cons, Option.some.injEq] at hb
      subst hb
      exact List.mem_cons_self _ _)
  simp only [isWsp, Bool.or_eq_false_iff, decide_eq_false_iff_not]
  omega

theorem lineOf_getLast?_ok (r : Nat × Str × Str × Str)
    (hv : ∀ b, r.2.2.2.getLast? = some b → isWsp b = false) :
    ∀ b, (lineOf r).getLast? = some b → isWsp b = false := by
  intro b hb
  cases hval : r.2.2.2 with
  | nil =>
    rw [lineOf, hval, List.append_nil,
      List.getLast?_append_of_ne_nil _ (by simp : [PIPE] ≠ [])] at hb
    simp only [List.getLast?_singleton, Option.some.injEq] at hb
    subst hb
    rfl
  | cons v vs =>
    rw [lineOf, hval, List.getLast?_append_of_ne_nil _ (by simp : v :: vs ≠ [])] at hb
    exact hv b (by rw [hval]; exact hb)

theorem lineOf_no_nl (r : Nat × Str × Str × Str)
    (hop : okOp r.2.1) (hkey : noPipeNoNL r.2.2.1) (hval : noNL r.2.2.2) :
    NL ∉ lineOf r := by
  intro hmem
  rw [lineOf] at hmem
  simp only [List.mem_append, List.mem_singleton] at hmem
  rcases hmem with ((((((h | h) | h) | h) | h) | h) | h)
  · have := (decimalBytes_spec r.1).2 _ h
    simp only [NL] at this
    omega
  · exact absurd h (by simp [NL, PIPE])
  · rcases hop with hput | hdel
    · rw [hput] at h
      revert h
      decide
    · rw [hdel] at h
      revert h
      decide
  · exact absurd h (by simp [NL, PIPE])
  · exact (hkey NL h).2 rfl
  · exact absurd h (by simp [NL, PIPE])
  · exact hval NL h rfl

theorem pipe_not_mem_op (op : Str) (h : okOp op) : PIPE ∉ op := by
  rcases h with h | h <;> rw [h] <;> decide

/-- The round trip over a non-empty append sequence. -/
theorem walRecover_walFileOf (recs : List (Nat × Str × Str × Str)) (hne : recs ≠ [])
    (hop : ∀ r ∈ recs, okOp r.2.1)
    (hkey : ∀ r ∈ recs, noPipeNoNL r.2.2.1)
    (hval : ∀ r ∈ recs, noNL r.2.2.2)
    (hlastv : ∀ r, recs.getLast? = some r →
      ∀ b, r.2.2.2.getLast? = some b → isWsp b = false) :
    walRecover (walFileOf recs) = recs.map (fun r => (r.2.1, r.2.2.1, r.2.2.2)) := by
  have hlines_ne : recs.map lineOf ≠ [] := by simpa using hne
  have hline_nonempty : ∀ l ∈ recs.map lineOf, l ≠ [] := by
    rintro l hl
    obtain ⟨r, _, rfl⟩ := List.mem_map.mp hl
    exact lineOf_ne_nil r
  have hline_nonl : ∀ l ∈ recs.map lineOf, NL ∉ l := by
    rintro l hl
    obtain ⟨r, hr, rfl⟩ := List.mem_map.mp hl
    exact lineOf_no_nl r (hop r hr) (hkey r hr) (hval r hr)
  have hfile : walFileOf recs = joinNL (recs.map lineOf) ++ [NL] := by
    rw [walFileOf_eq_flatten,
      show recs.map (fun r => lineOf r ++ [NL]) =
        (recs.map lineOf).map (fun l => l ++ [NL]) from by rw [List.map_map]; rfl,
      flatten_map_nl _ hlines_ne]
  have hhead : ∀ b, (joinNL (recs.map lineOf)).head? = some b → isWsp b = false := by
    intro b hb
    cases hrecs : recs with
    | nil => exact absurd hrecs hne
    | cons r0 rest =>
      rw [hrecs] at hb
      rw [joinNL_head? _ (by rw [← hrecs]; exact hline_nonempty) (lineOf r0) (by simp)] at hb
      exact lineOf_head?_ok r0 b hb
  have hlast : ∀ b, (joinNL (recs.map lineOf)).getLast? = some b → isWsp b = false := by
    intro b hb
    obtain ⟨rl, hrl⟩ : ∃ rl, recs.getLast? = some rl := by
      cases hrecs : recs with
      | nil => exact absurd hrecs hne
      | cons r0 rest => exact ⟨_, List.getLast?_eq_getLast _ (by simp)⟩
    have hmaplast : (recs.map lineOf).getLast? = some (lineOf rl) := by
      rw [List.getLast?_map, hrl, Option.map_some']
    rw [joinNL_getLast? _ hline_nonempty (lineOf rl) hmaplast] at hb
    exact lineOf_getLast?_ok rl (hlastv rl hrl) b hb
  have hjoin_ne := joinNL_ne_nil _ hlines_ne hline_nonempty
  rw [hfile, walRecover, trimBytes_append_nl _ hhead hlast,
    if_neg (by simpa using hjoin_ne), splitOnByte_joinNL _ hlines_ne hline_nonl]
  rw [List.filterMap_map]
  refine filterMap_all_some _ _ recs ?_
  intro r hr
  simp only [Function.comp_apply, lineOf_ne_nil r, if_neg (lineOf_ne_nil r)]
  exact parseWalLine_lineOf r (pipe_not_mem_op _ (hop r hr)) (fun hm => (hkey r hr PIPE hm).1 rfl)

/-- **C4 counterexample.**  A single `append("PUT", "k", "v ")` — the key has
no `|`/newline, the value no newline — recovers as value `"v"`: `recover()`
trims the file, eating the final record's trailing whitespace. -/
theorem C4_counterexample :
    walRecover (walAppend [] 100 PUTB (strBytes "k") (strBytes "v ")) =
      [(PUTB, strBytes "k", strBytes "v")] ∧
    walRecover (walAppend [] 100 PUTB (strBytes "k") (strBytes "v ")) ≠
      [(PUTB, strBytes "k", strBytes "v ")] := by
  exact ⟨by decide, by decide⟩

/-- **C4 (amended).**  For every sequence of `append(op, key, value)` calls on
a fresh WAL with `op ∈ {PUT, DELETE}`, keys free of `|` and line terminators,
values free of line terminators, **and the final record's value not ending in
a whitespace character** (because `recover()` runs `content.trim()`, which
strips trailing whitespace of the last line), `recover()` returns exactly the
appended `(op, key, value)` sequence in order, values verbatim (embedded `|`
included); lines with fewer than three `|` are skipped, and an empty file
yields the empty sequence. -/
theorem C4_recover_roundtrip (recs : List (Nat × Str × Str × Str))
    (hop : ∀ r ∈ recs, okOp r.2.1)
    (hkey : ∀ r ∈ recs, noPipeNoNL r.2.2.1)
    (hval : ∀ r ∈ recs, noNL r.2.2.2)
    (hlastv : lastValueNotWsp recs = true) :
    walRecover (walFileOf recs) = recs.map (fun r => (r.2.1, r.2.2.1, r.2.2.2)) ∧
    walRecover [] = [] ∧
    ∀ line : List Nat, line.count PIPE < 3 → parseWalLine line = none := by
  refine ⟨?_, rfl, parseWalLine_malformed⟩
  have hlastv' : ∀ r, recs.getLast? = some r →
      ∀ b, r.2.2.2.getLast? = some b → isWsp b = false := by
    intro r hr b hb
    rw [lastValueNotWsp, hr] at hlastv
    simp only [Option.all_some] at hlastv
    rw [hb] at hlastv
    simpa using hlastv
  cases hrecs : recs with
  | nil => rfl
  | cons r0 rest =>
    rw [← hrecs]
    exact walRecover_walFileOf recs (by rw [hrecs]; simp) hop hkey hval hlastv'

theorem C4_witness :
    (∀ r ∈ [(100, PUTB, strBytes "k", strBytes "a|b")], okOp r.2.1) ∧
    walRecover (walFileOf [(100, PUTB, strBytes "k", strBytes "a|b")]) =
      [(PUTB, strBytes "k", strBytes "a|b")] :=
  ⟨by decide,
    (C4_recover_roundtrip [(100, PUTB, strBytes "k", strBytes "a|b")]
      (by decide) (by decide) (by decide) (by decide)).1⟩

/-! ### C5: `get` on a written SSTable equals association lookup

The development follows the read path: (A) `open` recovers the writer's
offsets, bloom filter and sparse index; (B) the data block is the
concatenation of the records and the sparse index points at record
boundaries; (C) the sparse-index walk yields a window `[offs a, offs b)`
whose outside is settled (`keys < key` before, `keys > key` after); (D) the
byte-level scan of a record-aligned window equals the list-level scan; (E)
the list-level scan over the window equals association lookup over the whole
entry sequence. -/

theorem strLt_trans (a b c : Str) (hab : strLt a b = true) (hbc : strLt b c = true) :
    strLt a c = true := by
  induction a generalizing b c with
  | nil =>
    cases c with
    | nil => cases b with
      | nil => exact absurd hab (by simp [strLt])
      | cons y ys => exact absurd hbc (by simp [strLt])
    | cons z zs => simp [strLt]
  | cons x xs ih =>
    cases b with
    | nil => exact absurd hab (by simp [strLt])
    | cons y ys =>
      cases c with
      | nil => exact absurd hbc (by simp [strLt])
      | cons z zs =>
        simp only [strLt] at hab hbc ⊢
        by_cases hxy : x < y
        · by_cases hyz : y < z
          · simp [show x < z by omega]
          · by_cases hzy : z < y
            · simp [hyz, hzy] at hbc
            · have : y = z := by omega
              subst this
              simp [hxy]
        · by_cases hyx : y < x
          · simp [hxy, hyx] at hab
          · have hxyeq : x = y := by omega
            subst hxyeq
            by_cases hyz : x < z
            · simp [hyz]
            · by_cases hzy : z < x
              · simp [hyz, hzy] at hbc
              · have : x = z := by omega
                subst this
                simp only [lt_irrefl, if_false]
                simp only [lt_irrefl, if_false] at hab hbc
                exact ih ys zs hab hbc

theorem strLt_eq_of_not_lt (a b : Str) (h1 : strLt a b = false) (h2 : strLt b a = false) :
    a = b := by
  induction a generalizing b with
  | nil =>
    cases b with
    | nil => rfl
    | cons y ys => simp [strLt] at h1
  | cons x xs ih =>
    cases b with
    | nil => simp [strLt] at h2
    | cons y ys =>
      simp only [strLt] at h1 h2
      by_cases hxy : x < y
      · simp [hxy] at h1
      · by_cases hyx : y < x
        · simp [hxy, hyx] at h2
        · have : x = y := by omega
          subst this
          simp only [lt_irrefl, if_false] at h1 h2
          rw [ih ys h1 h2]

/-- From `a < b` and `¬(c < b)` (so `b ≤ c`) conclude `a < c`. -/
theorem strLt_of_lt_of_nlt (a b c : Str) (hab : strLt a b = true) (hcb : strLt c b = false) :
    strLt a c = true := by
  by_cases hac : strLt a c = true
  · exact hac
  · by_cases hca : strLt c a = true
    · exact absurd (strLt_trans c a b hca hab) (by simp [hcb])
    · have : a = c := strLt_eq_of_not_lt a c (by simpa using hac) (by simpa using hca)
      subst this
      exact absurd hab (by simp [hcb])

theorem readU16_u16le (n : Nat) (rest : List Nat) (h : n < 2 ^ 16) :
    readU16 (u16le n ++ rest) 0 = n := by
  simp only [readU16, u16le, List.cons_append, List.nil_append, List.getD_cons_zero,
    List.getD_cons_succ]
  omega

theorem encRecord_length (e : Entry) : (encRecord e).length = recLen e := by
  simp [encRecord, recLen, u16le, u32le]
  omega

theorem dataBlock_bytes (es : List Entry) : ∀ i off,
    (dataBlockAux es i off).1 = (es.map encRecord).flatten := by
  induction es with
  | nil => intro i off; rfl
  | cons e es ih => intro i off; simp [dataBlockAux, ih]

theorem flatten_encRecord_length (es : List Entry) :
    ((es.map encRecord).flatten).length = (es.map recLen).sum := by
  induction es with
  | nil => rfl
  | cons e es ih => simp [ih, encRecord_length]

theorem dataLenOf_eq_sum (entries : List Entry) :
    dataLenOf entries = (entries.map recLen).sum := by
  rw [dataLenOf, dataBlock_bytes, flatten_encRecord_length]

theorem offs_zero (entries : List Entry) : offs entries 0 = 9 := by
  simp [offs]

theorem offs_length_eq_idxOff (entries : List Entry) :
    offs entries entries.length = idxOffOf entries := by
  simp [offs, idxOffOf, dataLenOf_eq_sum, List.take_of_length_le (le_refl entries.length)]

theorem recLen_ge_six (e : Entry) : 6 ≤ recLen e := by
  simp [recLen]; omega

theorem offs_mono (entries : List Entry) (a b : Nat) (h : a ≤ b) :
    offs entries a ≤ offs entries b := by
  simp only [offs]
  have : (entries.take a).map recLen <+: (entries.take b).map recLen :=
    (List.take_prefix_take_left _ h).map recLen
  have := this.sublist.sum_le_sum (by intro x hx; positivity)
  omega

theorem sum_recLen_ge (l : List Entry) : 6 * l.length ≤ (l.map recLen).sum := by
  induction l with
  | nil => simp
  | cons e es ih =>
    have := recLen_ge_six e
    simp only [List.map_cons, List.sum_cons, List.length_cons]
    omega

theorem index_le_offs (entries : List Entry) (b : Nat) (hb : b ≤ entries.length) :
    b ≤ offs entries b := by
  simp only [offs]
  have hlen : (entries.take b).length = b := by
    simp [List.length_take]
    omega
  have h6 := sum_recLen_ge (entries.take b)
  rw [hlen] at h6
  omega

theorem subarray_append_start (l l' : List Nat) (e : Nat) :
    subarray (l ++ l') l.length (l.length + e) = l'.take e := by
  have h := subarray_append_right l l' 0 e
  simpa [subarray] using h

theorem readU32_footer (a b c d : Nat) (ha : a < 2 ^ 32) (hb : b < 2 ^ 32)
    (hc : c < 2 ^ 32) (hd : d < 2 ^ 32) :
    readU32 (u32le a ++ u32le b ++ u32le c ++ u32le d) 0 = a ∧
    readU32 (u32le a ++ u32le b ++ u32le c ++ u32le d) 4 = b ∧
    readU32 (u32le a ++ u32le b ++ u32le c ++ u32le d) 8 = c ∧
    readU32 (u32le a ++ u32le b ++ u32le c ++ u32le d) 12 = d := by
  have hshape : u32le a ++ u32le b ++ u32le c ++ u32le d =
      u32le a ++ (u32le b ++ (u32le c ++ u32le d)) := by
    simp [List.append_assoc]
  refine ⟨?_, ?_, ?_, ?_⟩
  · rw [hshape, readU32_u32le _ _ ha]
  · rw [hshape, readU32_append_right _ _ 4 (by simp [u32le])]
    simp only [u32le, List.length_cons, List.length_nil]
    rw [show (4 : Nat) - (0 + 1 + 1 + 1 + 1) = 0 from rfl]
    exact readU32_u32le _ _ hb
  · rw [show u32le a ++ u32le b ++ u32le c ++ u32le d =
        (u32le a ++ u32le b) ++ (u32le c ++ u32le d) from by simp [List.append_assoc]]
    rw [readU32_append_right _ _ 8 (by simp [u32le])]
    rw [show (8 : Nat) - (u32le a ++ u32le b).length = 0 from by simp [u32le]]
    exact readU32_u32le _ _ hc
  · rw [show u32le a ++ u32le b ++ u32le c ++ u32le d =
        (u32le a ++ u32le b ++ u32le c) ++ u32le d from by simp [List.append_assoc]]
    rw [readU32_append_right _ _ 12 (by simp [u32le])]
    rw [show (12 : Nat) - (u32le a ++ u32le b ++ u32le c).length = 0 from by simp [u32le]]
    have := readU32_u32le d [] hd
    simpa using this

theorem idxOff_le_bloomOff (entries : List Entry) : idxOffOf entries ≤ bloomOffOf entries := by
  simp [bloomOffOf]

theorem preFooter_length (entries : List Entry) :
    (preFooter entries).length =
      bloomOffOf entries + (bloomSerialize (writerBloom entries)).length := by
  simp [preFooter, bloomOffOf, idxOffOf, dataLenOf, u32le]
  omega

/-- `open` on a written file succeeds and recovers the writer's layout. -/
theorem sstOpen_sstWrite (entries : List Entry) (h32 : bloomOffOf entries < 2 ^ 32) :
    sstOpen (sstWrite entries) = some
      { buf := sstWrite entries
        dataOffset := 9
        indexOffset := idxOffOf entries
        bloomOffset := bloomOffOf entries
        entryCount := readU32 (sstWrite entries) 5
        bloom := bloomDeserialize
          (subarray (sstWrite entries) (bloomOffOf entries) ((sstWrite entries).length - 16))
        sparseIndex := parseIndexAux (sstWrite entries) (bloomOffOf entries)
          (idxOffOf entries) (bloomOffOf entries) } := by
  have hdec := sstWrite_decomp entries
  have hlen : (sstWrite entries).length = (preFooter entries).length + 16 := by
    rw [hdec, List.length_append, footerOf_length]
  have hstart : (sstWrite entries).length - 16 = (preFooter entries).length := by omega
  have hmagic : SSTABLE_MAGIC < 2 ^ 32 := by norm_num [SSTABLE_MAGIC]
  have hfr := readU32_footer 9 (idxOffOf entries) (bloomOffOf entries) SSTABLE_MAGIC
    (by norm_num) (lt_of_le_of_lt (idxOff_le_bloomOff entries) h32) h32 hmagic
  have hread : ∀ k, k ≤ 12 →
      readU32 (sstWrite entries) ((sstWrite entries).length - 16 + k) =
        readU32 (footerOf entries) k := by
    intro k hk
    rw [hstart, hdec, readU32_append_right _ _ _ (by omega)]
    congr 1
    omega
  have h0 : readU32 (sstWrite entries) ((sstWrite entries).length - 16) = 9 := by
    have := hread 0 (by omega)
    simpa [footerOf] using this.trans hfr.1
  have h4 : readU32 (sstWrite entries) ((sstWrite entries).length - 16 + 4) =
      idxOffOf entries := by
    have := hread 4 (by omega)
    simpa [footerOf] using this.trans hfr.2.1
  have h8 : readU32 (sstWrite entries) ((sstWrite entries).length - 16 + 8) =
      bloomOffOf entries := by
    have := hread 8 (by omega)
    simpa [footerOf] using this.trans hfr.2.2.1
  have h12 : readU32 (sstWrite entries) ((sstWrite entries).length - 16 + 12) =
      SSTABLE_MAGIC := by
    have := hread 12 (by omega)
    simpa [footerOf] using this.trans hfr.2.2.2
  have hheader : readU32 (sstWrite entries) 0 = SSTABLE_MAGIC := by
    have hsh : sstWrite entries = u32le SSTABLE_MAGIC ++
        ([SSTABLE_VERSION] ++ u32le entries.length ++ (dataBlockAux entries 0 9).1 ++
          indexBlock (dataBlockAux entries 0 9).2 ++ bloomSerialize (writerBloom entries) ++
          footerOf entries) := by
      rw [hdec]; simp [preFooter, List.append_assoc]
    rw [hsh, readU32_u32le _ _ hmagic]
  rw [sstOpen]
  simp only [h0, h4, h8, h12, hheader]
  simp

theorem sstWrite_bloom_block (entries : List Entry) :
    subarray (sstWrite entries) (bloomOffOf entries) ((sstWrite entries).length - 16) =
      bloomSerialize (writerBloom entries) := by
  have hP : sstWrite entries =
      (u32le SSTABLE_MAGIC ++ [SSTABLE_VERSION] ++ u32le entries.length ++
        (dataBlockAux entries 0 9).1 ++ indexBlock (dataBlockAux entries 0 9).2) ++
      (bloomSerialize (writerBloom entries) ++ footerOf entries) := by
    rw [sstWrite_decomp]
    simp [preFooter, List.append_assoc]
  have hPlen : (u32le SSTABLE_MAGIC ++ [SSTABLE_VERSION] ++ u32le entries.length ++
      (dataBlockAux entries 0 9).1 ++ indexBlock (dataBlockAux entries 0 9).2).length =
      bloomOffOf entries := by
    simp [bloomOffOf, idxOffOf, dataLenOf, u32le]
    omega
  have hlen : (sstWrite entries).length =
      bloomOffOf entries + (bloomSerialize (writerBloom entries)).length + 16 := by
    rw [sstWrite_decomp, List.length_append, footerOf_length, preFooter_length]
  rw [show (sstWrite entries).length - 16 =
      bloomOffOf entries + (bloomSerialize (writerBloom entries)).length from by omega]
  rw [hP, ← hPlen, subarray_append_start]
  exact List.take_left _ _

theorem bloomDes_writerBloom (entries : List Entry) :
    bloomDeserialize (bloomSerialize (writerBloom entries)) = writerBloom entries := by
  have hfold : writerBloom entries =
      (entries.map Entry.key).foldl bloomAdd (bloomInit BLOOM_FILTER_SIZE BLOOM_HASH_COUNT) := by
    rw [writerBloom, List.foldl_map]
  have hinv := foldl_bloomAdd_invariant (entries.map Entry.key) BLOOM_FILTER_SIZE
    (by norm_num [BLOOM_FILTER_SIZE]) (bloomInit BLOOM_FILTER_SIZE BLOOM_HASH_COUNT) rfl
    (by positivity)
  refine bloom_roundtrip _ ?_ ?_
  · rw [hfold, hinv.1]
    norm_num [BLOOM_FILTER_SIZE]
  · rw [hfold, hinv.1]
    exact hinv.2.2

theorem parseIndexAux_indexBlock (sidx : List (Str × Nat)) :
    ∀ (A B : List Nat) (fuel : Nat), sidx.length ≤ fuel →
    (∀ p ∈ sidx, p.1.length < 2 ^ 16) → (∀ p ∈ sidx, p.2 < 2 ^ 32) →
    parseIndexAux (A ++ indexBlock sidx ++ B) fuel A.length
      (A.length + (indexBlock sidx).length) = sidx := by
  induction sidx with
  | nil =>
    intro A B fuel _ _ _
    cases fuel with
    | zero => rfl
    | succ f => simp [parseIndexAux, indexBlock]
  | cons p rest ih =>
    intro A B fuel hfuel hk ho
    obtain ⟨k, off⟩ := p
    cases fuel with
    | zero => exact absurd hfuel (by simp)
    | succ f =>
      have hklen : k.length < 2 ^ 16 := hk (k, off) (by simp)
      have hoff : off < 2 ^ 32 := ho (k, off) (by simp)
      have hblock : indexBlock ((k, off) :: rest) =
          (u16le k.length ++ u32le off ++ k) ++ indexBlock rest := by
        simp [indexBlock]
      have helen : (u16le k.length ++ u32le off ++ k).length = 6 + k.length := by
        simp [u16le, u32le]
        omega
      have hbuf : A ++ indexBlock ((k, off) :: rest) ++ B =
          A ++ ((u16le k.length ++ u32le off ++ k) ++ (indexBlock rest ++ B)) := by
        rw [hblock]
        simp [List.append_assoc]
      have hr16 : readU16 (A ++ indexBlock ((k, off) :: rest) ++ B) A.length = k.length := by
        rw [hbuf, readU16_append_right _ _ _ (le_refl _), Nat.sub_self]
        rw [show (u16le k.length ++ u32le off ++ k) ++ (indexBlock rest ++ B) =
            u16le k.length ++ (u32le off ++ k ++ (indexBlock rest ++ B)) from by
          simp [List.append_assoc]]
        exact readU16_u16le _ _ hklen
      have hr32 : readU32 (A ++ indexBlock ((k, off) :: rest) ++ B) (A.length + 2) = off := by
        rw [hbuf, readU32_append_right _ _ _ (by omega),
          show A.length + 2 - A.length = 2 from by omega]
        rw [show (u16le k.length ++ u32le off ++ k) ++ (indexBlock rest ++ B) =
            u16le k.length ++ (u32le off ++ (k ++ (indexBlock rest ++ B))) from by
          simp [List.append_assoc]]
        rw [readU32_append_right _ _ _ (by simp [u16le]),
          show 2 - (u16le k.length).length = 0 from by simp [u16le]]
        exact readU32_u32le _ _ hoff
      have hsub : subarray (A ++ indexBlock ((k, off) :: rest) ++ B)
          (A.length + 6) (A.length + 6 + k.length) = k := by
        have hpre : (A ++ (u16le k.length ++ u32le off)).length = A.length + 6 := by
          simp [u16le, u32le]
        rw [show A ++ indexBlock ((k, off) :: rest) ++ B =
            (A ++ (u16le k.length ++ u32le off)) ++ (k ++ (indexBlock rest ++ B)) from by
          rw [hblock]; simp [List.append_assoc]]
        rw [← hpre, subarray_append_start]
        exact List.take_left _ _
      have hnext : parseIndexAux (A ++ indexBlock ((k, off) :: rest) ++ B) f
          (A.length + 6 + k.length) (A.length + (indexBlock ((k, off) :: rest)).length) =
          rest := by
        have hA' : A.length + 6 + k.length =
            (A ++ (u16le k.length ++ u32le off ++ k)).length := by
          simp [u16le, u32le]
          omega
        have hbuf' : A ++ indexBlock ((k, off) :: rest) ++ B =
            (A ++ (u16le k.length ++ u32le off ++ k)) ++ indexBlock rest ++ B := by
          rw [hblock]
          simp [List.append_assoc]
        have hend : A.length + (indexBlock ((k, off) :: rest)).length =
            (A ++ (u16le k.length ++ u32le off ++ k)).length + (indexBlock rest).length := by
          rw [hblock]
          simp only [List.length_append, helen]
          omega
        rw [hA', hbuf', hend]
        exact ih _ B f (by simpa using Nat.lt_succ_iff.mp (Nat.lt_of_lt_of_le (by simp) hfuel))
          (fun q hq => hk q (List.mem_cons_of_mem _ hq))
          (fun q hq => ho q (List.mem_cons_of_mem _ hq))
      rw [parseIndexAux]
      rw [if_pos (by
        rw [hblock]
        simp only [List.length_append, helen]
        omega)]
      rw [hr16, hr32]
      simp only [hsub, hnext]

/-- The sparse index collected by the writer is a strictly increasing
selection of entry indices, each paired with its record's byte offset. -/
theorem dataBlock_sparse_spec (es : List Entry) : ∀ i off,
    ∃ js : List Nat, js.Pairwise (· < ·) ∧ (∀ j ∈ js, j < es.length) ∧
      (dataBlockAux es i off).2 =
        js.map (fun j => ((es.getD j { key := [], value := [] }).key,
          off + ((es.take j).map recLen).sum)) := by
  induction es with
  | nil => exact fun i off => ⟨[], by simp, by simp, rfl⟩
  | cons e es ih =>
    intro i off
    obtain ⟨js, hpw, hbound, heq⟩ := ih (i + 1) (off + recLen e)
    by_cases hi : i % SPARSE_INDEX_INTERVAL = 0
    · refine ⟨0 :: js.map (· + 1), ?_, ?_, ?_⟩
      · rw [List.pairwise_cons]
        refine ⟨?_, ?_⟩
        · intro j hj
          obtain ⟨j0, _, rfl⟩ := List.mem_map.mp hj
          omega
        · refine List.Pairwise.map _ (fun a b hab => by omega) hpw
      · intro j hj
        rcases List.mem_cons.mp hj with rfl | hj'
        · simp
        · obtain ⟨j0, hj0, rfl⟩ := List.mem_map.mp hj'
          have := hbound j0 hj0
          simp
          omega
      · simp only [dataBlockAux, hi, if_pos, List.singleton_append, heq, List.map_cons,
          List.map_map]
        refine congrArg₂ _ (by simp) ?_
        refine List.map_congr_left (fun j hj => ?_)
        simp only [Function.comp_apply, List.getD_cons_succ, List.take_succ_cons,
          List.map_cons, List.sum_cons]
        refine congrArg₂ _ rfl (by omega)
    · refine ⟨js.map (· + 1), ?_, ?_, ?_⟩
      · refine List.Pairwise.map _ (fun a b hab => by omega) hpw
      · intro j hj
        obtain ⟨j0, hj0, rfl⟩ := List.mem_map.mp hj
        have := hbound j0 hj0
        simp
        omega
      · simp only [dataBlockAux, hi, if_neg, List.nil_append, heq, List.map_map]
        refine List.map_congr_left (fun j hj => ?_)
        simp only [Function.comp_apply, List.getD_cons_succ, List.take_succ_cons,
          List.map_cons, List.sum_cons]
        refine congrArg₂ _ rfl (by omega)

theorem keysSorted_lt (entries : List Entry) (h : keysSorted entries) (p q : Nat)
    (hpq : p < q) (hq : q < entries.length) :
    strLt (keyAt entries p) (keyAt entries q) = true := by
  rw [keysSorted, List.pairwise_iff_getElem] at h
  have hr := h p q (by omega) hq hpq
  rw [keyAt, keyAt, List.getD_eq_getElem _ _ (by omega : p < entries.length),
    List.getD_eq_getElem _ _ hq]
  exact hr

/-- The sparse-index walk returns a record-aligned window `[offs a, offs b)`
with all keys before `a` strictly below the target and all keys from `b` on
strictly above it. -/
theorem findWindow_spec (entries : List Entry) (key : Str) (hsorted : keysSorted entries) :
    ∀ js : List Nat, js.Pairwise (· < ·) → (∀ j ∈ js, j < entries.length) →
    ∀ a0, a0 ≤ entries.length → (∀ j ∈ js, a0 ≤ j) →
      (∀ p, p < a0 → strLt (keyAt entries p) key = true) →
      ∃ a b, a0 ≤ a ∧ a ≤ b ∧ b ≤ entries.length ∧
        findWindowAux key (js.map (fun j => (keyAt entries j, offs entries j)))
          (offs entries a0) (offs entries entries.length) =
          (offs entries a, offs entries b) ∧
        (∀ p, p < a → strLt (keyAt entries p) key = true) ∧
        (∀ s, b ≤ s → s < entries.length → strLt key (keyAt entries s) = true) := by
  intro js
  induction js with
  | nil =>
    intro _ _ a0 ha0 _ hpre
    exact ⟨a0, entries.length, le_refl _, ha0, le_refl _, rfl, hpre,
      fun s hs hs' => absurd hs' (by omega)⟩
  | cons j js ih =>
    intro hpw hbound a0 ha0 hge hpre
    have hjlt : j < entries.length := hbound j (List.mem_cons_self _ _)
    obtain ⟨hjall, hpw'⟩ := List.pairwise_cons.mp hpw
    simp only [List.map_cons, findWindowAux]
    by_cases htest : strLt key (keyAt entries j) = true
    · rw [if_pos htest]
      refine ⟨a0, j, le_refl _, hge j (List.mem_cons_self _ _), by omega, rfl, hpre, ?_⟩
      intro s hs hs'
      rcases Nat.eq_or_lt_of_le hs with rfl | hlt
      · exact htest
      · exact strLt_trans _ _ _ htest (keysSorted_lt entries hsorted j s hlt hs')
    · rw [if_neg htest]
      have hpre' : ∀ p, p < j → strLt (keyAt entries p) key = true := by
        intro p hp
        by_cases hpa : p < a0
        · exact hpre p hpa
        · exact strLt_of_lt_of_nlt _ _ _
            (keysSorted_lt entries hsorted p j hp hjlt) (by simpa using htest)
      obtain ⟨a, b, hja, hab, hbn, heq, hbefore, hafter⟩ :=
        ih hpw' (fun x hx => hbound x (List.mem_cons_of_mem _ hx)) j (by omega)
          (fun x hx => Nat.le_of_lt (hjall x hx)) hpre'
      exact ⟨a, b, le_trans (hge j (List.mem_cons_self _ _)) hja, hab, hbn, heq,
        hbefore, hafter⟩

theorem scanRecords_spec (key : Str) (W : List Entry) :
    ∀ (A B : List Nat) (fuel : Nat), W.length ≤ fuel →
    (∀ e ∈ W, e.key.length < 2 ^ 16) → (∀ e ∈ W, e.value.length < 2 ^ 32) →
    scanRecords (A ++ (W.map encRecord).flatten ++ B) key fuel A.length
      (A.length + ((W.map encRecord).flatten).length) = scanRecList key W := by
  induction W with
  | nil =>
    intro A B fuel _ _ _
    cases fuel with
    | zero => rfl
    | succ f => simp [scanRecords, scanRecList]
  | cons e W ih =>
    intro A B fuel hfuel hk hv
    cases fuel with
    | zero => exact absurd hfuel (by simp)
    | succ f =>
      have hklen : e.key.length < 2 ^ 16 := hk e (by simp)
      have hvlen : e.value.length < 2 ^ 32 := hv e (by simp)
      have hflat : ((e :: W).map encRecord).flatten =
          encRecord e ++ (W.map encRecord).flatten := by simp
      have henclen : (encRecord e).length = 6 + e.key.length + e.value.length := by
        rw [encRecord_length, recLen]
      have hbuf : A ++ ((e :: W).map encRecord).flatten ++ B =
          A ++ (encRecord e ++ ((W.map encRecord).flatten ++ B)) := by
        rw [hflat]; simp [List.append_assoc]
      have hr16 : readU16 (A ++ ((e :: W).map encRecord).flatten ++ B) A.length =
          e.key.length := by
        rw [hbuf, readU16_append_right _ _ _ (le_refl _), Nat.sub_self]
        rw [show encRecord e ++ ((W.map encRecord).flatten ++ B) =
            u16le e.key.length ++ (u32le e.value.length ++ e.key ++ e.value ++
              ((W.map encRecord).flatten ++ B)) from by
          rw [encRecord]; simp [List.append_assoc]]
        exact readU16_u16le _ _ hklen
      have hr32 : readU32 (A ++ ((e :: W).map encRecord).flatten ++ B) (A.length + 2) =
          e.value.length := by
        rw [hbuf, readU32_append_right _ _ _ (by omega),
          show A.length + 2 - A.length = 2 from by omega]
        rw [show encRecord e ++ ((W.map encRecord).flatten ++ B) =
            u16le e.key.length ++ (u32le e.value.length ++ (e.key ++ e.value ++
              ((W.map encRecord).flatten ++ B))) from by
          rw [encRecord]; simp [List.append_assoc]]
        rw [readU32_append_right _ _ _ (by simp [u16le]),
          show 2 - (u16le e.key.length).length = 0 from by simp [u16le]]
        exact readU32_u32le _ _ hvlen
      have hkslice : subarray (A ++ ((e :: W).map encRecord).flatten ++ B)
          (A.length + 6) (A.length + 6 + e.key.length) = e.key := by
        have hpre : (A ++ (u16le e.key.length ++ u32le e.value.length)).length =
            A.length + 6 := by simp [u16le, u32le]
        rw [show A ++ ((e :: W).map encRecord).flatten ++ B =
            (A ++ (u16le e.key.length ++ u32le e.value.length)) ++
              (e.key ++ (e.value ++ ((W.map encRecord).flatten ++ B))) from by
          rw [hflat, encRecord]; simp [List.append_assoc]]
        rw [← hpre, subarray_append_start]
        exact List.take_left _ _
      have hvslice : subarray (A ++ ((e :: W).map encRecord).flatten ++ B)
          (A.length + 6 + e.key.length) (A.length + 6 + e.key.length + e.value.length) =
          e.value := by
        have hpre : (A ++ (u16le e.key.length ++ u32le e.value.length ++ e.key)).length =
            A.length + 6 + e.key.length := by
          simp [u16le, u32le]
          omega
        rw [show A ++ ((e :: W).map encRecord).flatten ++ B =
            (A ++ (u16le e.key.length ++ u32le e.value.length ++ e.key)) ++
              (e.value ++ ((W.map encRecord).flatten ++ B)) from by
          rw [hflat, encRecord]; simp [List.append_assoc]]
        rw [← hpre, subarray_append_start]
        exact List.take_left _ _
      have hnext : scanRecords (A ++ ((e :: W).map encRecord).flatten ++ B) key f
          (A.length + 6 + e.key.length + e.value.length)
          (A.length + (((e :: W).map encRecord).flatten).length) = scanRecList key W := by
        have hA' : A.length + 6 + e.key.length + e.value.length =
            (A ++ encRecord e).length := by
          simp [henclen]
          omega
        have hbuf' : A ++ ((e :: W).map encRecord).flatten ++ B =
            (A ++ encRecord e) ++ (W.map encRecord).flatten ++ B := by
          rw [hflat]; simp [List.append_assoc]
        have hend : A.length + (((e :: W).map encRecord).flatten).length =
            (A ++ encRecord e).length + ((W.map encRecord).flatten).length := by
          rw [hflat]
          simp only [List.length_append]
          omega
        rw [hA', hbuf', hend]
        exact ih _ B f (by simpa using Nat.lt_succ_iff.mp (Nat.lt_of_lt_of_le (by simp) hfuel))
          (fun q hq => hk q (List.mem_cons_of_mem _ hq))
          (fun q hq => hv q (List.mem_cons_of_mem _ hq))
      rw [scanRecords]
      rw [if_pos (by
        rw [hflat]
        simp only [List.length_append, henclen]
        omega)]
      rw [hr16, hr32]
      simp only [hkslice, hvslice, hnext, scanRecList]

theorem lookupEntry_none (key : Str) (W : List Entry) (h : ∀ e ∈ W, e.key ≠ key) :
    lookupEntry key W = none := by
  induction W with
  | nil => rfl
  | cons e W ih =>
    rw [lookupEntry, if_neg (h e (by simp)), ih (fun x hx => h x (List.mem_cons_of_mem _ hx))]

theorem lookupEntry_append_some (key : Str) (X Y : List Entry) (v : Str)
    (h : lookupEntry key X = some v) : lookupEntry key (X ++ Y) = some v := by
  induction X with
  | nil => simp [lookupEntry] at h
  | cons e X ih =>
    rw [lookupEntry] at h
    by_cases heq : e.key = key
    · rw [List.cons_append, lookupEntry, if_pos heq]
      rw [if_pos heq] at h
      exact h
    · rw [if_neg heq] at h
      rw [List.cons_append, lookupEntry, if_neg heq]
      exact ih h

theorem lookupEntry_append_none (key : Str) (X Y : List Entry)
    (h : lookupEntry key X = none) : lookupEntry key (X ++ Y) = lookupEntry key Y := by
  induction X with
  | nil => rfl
  | cons e X ih =>
    rw [lookupEntry] at h
    by_cases heq : e.key = key
    · rw [if_pos heq] at h; cases h
    · rw [if_neg heq] at h
      rw [List.cons_append, lookupEntry, if_neg heq]
      exact ih h

/-- Lookup in `P ++ W ++ S` reduces to lookup in `W` when no key of `P` or
`S` matches. -/
theorem lookupEntry_middle (key : Str) (P W S : List Entry)
    (hP : ∀ e ∈ P, e.key ≠ key) (hS : ∀ e ∈ S, e.key ≠ key) :
    lookupEntry key (P ++ W ++ S) = lookupEntry key W := by
  rw [List.append_assoc, lookupEntry_append_none _ _ _ (lookupEntry_none _ _ hP)]
  cases hW : lookupEntry key W with
  | some v => exact lookupEntry_append_some _ _ _ _ hW
  | none => rw [lookupEntry_append_none _ _ _ hW, lookupEntry_none _ _ hS]

theorem scanRecList_eq_lookup_sorted (key : Str) (W : List Entry) (h : keysSorted W) :
    scanRecList key W = lookupEntry key W := by
  induction W with
  | nil => rfl
  | cons e W ih =>
    obtain ⟨hall, h'⟩ := List.pairwise_cons.mp h
    simp only [scanRecList, lookupEntry]
    by_cases heq : e.key = key
    · simp [heq]
    · rw [if_neg heq, if_neg heq]
      by_cases hlt : strLt key e.key = true
      · rw [if_pos hlt]
        refine (lookupEntry_none key W ?_).symm
        intro x hx hxk
        have := strLt_trans key e.key x.key hlt (hall x hx)
        rw [hxk] at this
        simp [strLt_irrefl] at this
      · rw [if_neg hlt]
        exact ih h'

theorem length_le_of_pairwise_lt (js : List Nat) (n : Nat) (hpw : js.Pairwise (· < ·))
    (hb : ∀ j ∈ js, j < n) : js.length ≤ n := by
  have hnd : js.Nodup := hpw.imp (fun h => Nat.ne_of_lt h)
  have hsub : js.toFinset ⊆ Finset.range n := by
    intro x hx
    rw [List.mem_toFinset] at hx
    exact Finset.mem_range.mpr (hb x hx)
  have hcard := Finset.card_le_card hsub
  rwa [List.toFinset_card_of_nodup hnd, Finset.card_range] at hcard

theorem keyAt_mem (entries : List Entry) (j : Nat) (hj : j < entries.length) :
    ∃ e ∈ entries, e.key = keyAt entries j := by
  refine ⟨entries[j], List.getElem_mem _, ?_⟩
  rw [keyAt, List.getD_eq_getElem _ _ hj]

/-- The sparse index the reader parses is exactly the writer's. -/
theorem sstWrite_sparseIndex (entries : List Entry)
    (hklen : ∀ e ∈ entries, e.key.length < 2 ^ 16)
    (h32 : bloomOffOf entries < 2 ^ 32) :
    parseIndexAux (sstWrite entries) (bloomOffOf entries) (idxOffOf entries)
      (bloomOffOf entries) = (dataBlockAux entries 0 9).2 := by
  obtain ⟨js, hpw, hbound, heq⟩ := dataBlock_sparse_spec entries 0 9
  have hA : sstWrite entries =
      (u32le SSTABLE_MAGIC ++ [SSTABLE_VERSION] ++ u32le entries.length ++
        (dataBlockAux entries 0 9).1) ++
      indexBlock (dataBlockAux entries 0 9).2 ++
      (bloomSerialize (writerBloom entries) ++ footerOf entries) := by
    rw [sstWrite_decomp]
    simp [preFooter, List.append_assoc]
  have hAlen : (u32le SSTABLE_MAGIC ++ [SSTABLE_VERSION] ++ u32le entries.length ++
      (dataBlockAux entries 0 9).1).length = idxOffOf entries := by
    simp [idxOffOf, dataLenOf, u32le]
    omega
  have hkey : ∀ p ∈ (dataBlockAux entries 0 9).2, p.1.length < 2 ^ 16 := by
    intro p hp
    rw [heq] at hp
    obtain ⟨j, hj, rfl⟩ := List.mem_map.mp hp
    obtain ⟨e, he, hek⟩ := keyAt_mem entries j (hbound j hj)
    simp only [keyAt] at hek
    rw [← hek]
    exact hklen e he
  have hoff : ∀ p ∈ (dataBlockAux entries 0 9).2, p.2 < 2 ^ 32 := by
    intro p hp
    rw [heq] at hp
    obtain ⟨j, hj, rfl⟩ := List.mem_map.mp hp
    have h1 : offs entries j ≤ offs entries entries.length :=
      offs_mono entries j entries.length (Nat.le_of_lt (hbound j hj))
    rw [offs_length_eq_idxOff] at h1
    have h2 := idxOff_le_bloomOff entries
    simp only [offs] at h1 ⊢
    omega
  have hfuel : (dataBlockAux entries 0 9).2.length ≤ bloomOffOf entries := by
    rw [heq, List.length_map]
    have h1 := length_le_of_pairwise_lt js entries.length hpw hbound
    have h2 := index_le_offs entries entries.length (le_refl _)
    rw [offs_length_eq_idxOff] at h2
    have h3 := idxOff_le_bloomOff entries
    omega
  have hend : bloomOffOf entries =
      idxOffOf entries + (indexBlock (dataBlockAux entries 0 9).2).length := rfl
  rw [hend, ← hAlen, hA]
  exact parseIndexAux_indexBlock _ _ _ _ (by rw [hAlen]; exact hfuel) hkey hoff

theorem offs_add (entries : List Entry) (a d : Nat) :
    offs entries (a + d) =
      offs entries a + (((entries.drop a).take d).map recLen).sum := by
  simp only [offs, List.take_add, List.map_append, List.sum_append]
  omega

/-- **C5.**  For every file produced by `SSTableWriter.write` from an entry
sequence strictly ascending by key (key lengths < 2^16, value lengths < 2^32,
offsets within u32), `SSTableReader.open` succeeds and `get(k)` on the opened
file equals association lookup: the stored value when `k` was written,
`null` when it was not — bloom rejection, sparse-index window selection and
the bounded scan never miss a present key. -/
theorem C5_sstable_get_eq_lookup (entries : List Entry) (key : Str)
    (hsorted : keysSorted entries)
    (hklen : ∀ e ∈ entries, e.key.length < 2 ^ 16)
    (hvlen : ∀ e ∈ entries, e.value.length < 2 ^ 32)
    (h32 : bloomOffOf entries < 2 ^ 32) :
    ∃ r, sstOpen (sstWrite entries) = some r ∧
      sstGet r key = lookupEntry key entries := by
  refine ⟨_, sstOpen_sstWrite entries h32, ?_⟩
  have hbloom : bloomDeserialize (subarray (sstWrite entries) (bloomOffOf entries)
      ((sstWrite entries).length - 16)) = writerBloom entries := by
    rw [sstWrite_bloom_block, bloomDes_writerBloom]
  rw [sstGet]
  simp only [hbloom, sstWrite_sparseIndex entries hklen h32]
  by_cases hmc : mightContain (writerBloom entries) key = true
  · rw [hmc]
    simp only [Bool.not_true, Bool.false_eq_true, if_false]
    obtain ⟨js, hpw, hbound, heq⟩ := dataBlock_sparse_spec entries 0 9
    have heq' : (dataBlockAux entries 0 9).2 =
        js.map (fun j => (keyAt entries j, offs entries j)) := heq
    rw [heq']
    obtain ⟨a, b, _, hab, hbn, hfw, hbefore, hafter⟩ :=
      findWindow_spec entries key hsorted js hpw hbound 0 (by omega)
        (fun j _ => by omega) (fun p hp => absurd hp (by omega))
    have hw : findWindowAux key (js.map (fun j => (keyAt entries j, offs entries j)))
        9 (idxOffOf entries) = (offs entries a, offs entries b) := by
      rw [show (9 : Nat) = offs entries 0 from (offs_zero entries).symm,
        show idxOffOf entries = offs entries entries.length from
          (offs_length_eq_idxOff entries).symm]
      exact hfw
    rw [hw]
    simp only
    -- split the entries at the window
    have hsplit : entries = entries.take a ++
        ((entries.drop a).take (b - a) ++ (entries.drop a).drop (b - a)) := by
      rw [List.take_append_drop, List.take_append_drop]
    have hdropS : (entries.drop a).drop (b - a) = entries.drop b := by
      rw [List.drop_drop, show a + (b - a) = b from by omega]
    -- buffer structure around the window records
    have hdb : (dataBlockAux entries 0 9).1 =
        ((entries.take a).map encRecord).flatten ++
        ((((entries.drop a).take (b - a)).map encRecord).flatten ++
          (((entries.drop a).drop (b - a)).map encRecord).flatten) := by
      rw [dataBlock_bytes]
      rw [show entries.map encRecord = (entries.take a).map encRecord ++
          (((entries.drop a).take (b - a)).map encRecord ++
            ((entries.drop a).drop (b - a)).map encRecord) from by
        rw [← List.map_append, ← List.map_append, ← hsplit]]
      rw [List.flatten_append, List.flatten_append]
    have hbuf : sstWrite entries =
        (u32le SSTABLE_MAGIC ++ [SSTABLE_VERSION] ++ u32le entries.length ++
          ((entries.take a).map encRecord).flatten) ++
        ((((entries.drop a).take (b - a)).map encRecord).flatten) ++
        ((((entries.drop a).drop (b - a)).map encRecord).flatten ++
          indexBlock (dataBlockAux entries 0 9).2 ++
          bloomSerialize (writerBloom entries) ++ footerOf entries) := by
      rw [sstWrite_decomp]
      simp only [preFooter]
      rw [hdb]
      simp [List.append_assoc]
    have hAlen : (u32le SSTABLE_MAGIC ++ [SSTABLE_VERSION] ++ u32le entries.length ++
        ((entries.take a).map encRecord).flatten).length = offs entries a := by
      simp only [List.length_append, flatten_encRecord_length, offs, u32le]
      simp
    have hoffb : offs entries b = offs entries a +
        ((((entries.drop a).take (b - a)).map encRecord).flatten).length := by
      have h1 := offs_add entries a (b - a)
      rw [show a + (b - a) = b from by omega] at h1
      rw [flatten_encRecord_length, h1]
    have hWle : ((entries.drop a).take (b - a)).length ≤ offs entries b := by
      have h1 : ((entries.drop a).take (b - a)).length ≤ b := by
        simp [List.length_take]
      have h2 := index_le_offs entries b hbn
      omega
    have hscan := scanRecords_spec key ((entries.drop a).take (b - a))
      (u32le SSTABLE_MAGIC ++ [SSTABLE_VERSION] ++ u32le entries.length ++
        ((entries.take a).map encRecord).flatten)
      ((((entries.drop a).drop (b - a)).map encRecord).flatten ++
        indexBlock (dataBlockAux entries 0 9).2 ++
        bloomSerialize (writerBloom entries) ++ footerOf entries)
      (offs entries b) hWle
      (fun e he => hklen e (by
        rw [hsplit]
        exact List.mem_append.mpr (Or.inr (List.mem_append.mpr (Or.inl he)))))
      (fun e he => hvlen e (by
        rw [hsplit]
        exact List.mem_append.mpr (Or.inr (List.mem_append.mpr (Or.inl he)))))
    rw [hAlen] at hscan
    rw [← hoffb] at hscan
    rw [hbuf, hscan]
    -- list-level scan over the window equals lookup over everything
    have hWsorted : keysSorted ((entries.drop a).take (b - a)) :=
      List.Pairwise.sublist ((List.take_sublist _ _).trans (List.drop_sublist _ _)) hsorted
    rw [scanRecList_eq_lookup_sorted key _ hWsorted]
    have hP : ∀ e ∈ entries.take a, e.key ≠ key := by
      intro e he hek
      obtain ⟨p, hp, hpe⟩ := List.mem_iff_getElem.mp he
      have hpa : p < a := by
        have := List.length_take_le a entries
        simp [List.length_take] at hp
        omega
      have hpn : p < entries.length := by
        simp [List.length_take] at hp
        omega
      have hkp : keyAt entries p = e.key := by
        rw [keyAt, List.getD_eq_getElem _ _ hpn, ← hpe, List.getElem_take]
      have := hbefore p hpa
      rw [hkp, hek] at this
      simp [strLt_irrefl] at this
    have hS : ∀ e ∈ (entries.drop a).drop (b - a), e.key ≠ key := by
      intro e he hek
      rw [hdropS] at he
      obtain ⟨p, hp, hpe⟩ := List.mem_iff_getElem.mp he
      have hpn : b + p < entries.length := by
        simp [List.length_drop] at hp
        omega
      have hkp : keyAt entries (b + p) = e.key := by
        rw [keyAt, List.getD_eq_getElem _ _ hpn, ← hpe, List.getElem_drop]
      have := hafter (b + p) (by omega) hpn
      rw [hkp, hek] at this
      simp [strLt_irrefl] at this
    conv_rhs => rw [hsplit]
    rw [show entries.take a ++ ((entries.drop a).take (b - a) ++
        (entries.drop a).drop (b - a)) = entries.take a ++
        (entries.drop a).take (b - a) ++ (entries.drop a).drop (b - a) from by
      simp [List.append_assoc]]
    rw [lookupEntry_middle key _ _ _ hP hS]
  · have hmc' : mightContain (writerBloom entries) key = false := by
      simpa using hmc
    rw [hmc']
    simp only [Bool.not_false, if_true]
    symm
    apply lookupEntry_none
    intro e he hek
    apply hmc
    rw [show writerBloom entries =
        (entries.map Entry.key).foldl bloomAdd
          (bloomInit BLOOM_FILTER_SIZE BLOOM_HASH_COUNT) from by
      rw [writerBloom, List.foldl_map]]
    exact mightContain_foldl_bloomAdd_of_mem _ key _
      (List.mem_map.mpr ⟨e, he, hek⟩)

theorem C5_witness :
    keysSorted [Entry.mk (strBytes "a") (strBytes "1"), Entry.mk (strBytes "b") (strBytes "2")] ∧
    (∃ r, sstOpen (sstWrite [Entry.mk (strBytes "a") (strBytes "1"),
        Entry.mk (strBytes "b") (strBytes "2")]) = some r ∧
      sstGet r (strBytes "b") =
        lookupEntry (strBytes "b") [Entry.mk (strBytes "a") (strBytes "1"),
          Entry.mk (strBytes "b") (strBytes "2")]) :=
  ⟨by decide,
    C5_sstable_get_eq_lookup
      [Entry.mk (strBytes "a") (strBytes "1"), Entry.mk (strBytes "b") (strBytes "2")]
      (strBytes "b") (by decide) (by decide) (by decide) (by decide)⟩
